import Mathlib

/-!
Verification model of a log-structured key-value store.

The source program (Rust) keeps an append-only set of segment files
`1.log, 2.log, ...` in a data directory, an in-memory index from keys to
file positions, and a stale-record counter that triggers compaction.

The model below is a shallow embedding:
* strings are `List Char` (the source operates on UTF-8 text; the
  writer and the reader of a segment use the same offsets, so measuring
  offsets in characters instead of bytes is a faithful change of unit);
* the data directory is an association list from segment number to file
  content (the engine itself always creates files with the canonical
  name of their segment number, so engine-produced directories are
  exactly of this shape; the file-name scanning done by `open` is
  modelled separately, on raw names, by `scanMax` below);
* fallible operations return `Except KvsError`, and mutating operations
  also return the resulting store, mirroring `&mut self` in the source
  (on an error the partially mutated store is returned, exactly as the
  `?` operator leaves `self` in the source).
-/

namespace KvsModel

/-- Rust `char::is_whitespace`: the Unicode `White_Space` property
(the set used by `str::trim` in `LogHelper::deserialize`). -/
def rustIsWs (c : Char) : Bool :=
  c = ' ' || c = '\t' || c = '\n' || c = '\x0b' || c = '\x0c' || c = '\r'
    || c = '\x85' || c = '\xa0' || c.val = 0x1680
    || (0x2000 ≤ c.val && c.val ≤ 0x200a) || c.val = 0x2028 || c.val = 0x2029
    || c.val = 0x202f || c.val = 0x205f || c.val = 0x3000

/-- Remove trailing whitespace (the suffix part of Rust `str::trim`). -/
def dropTrailWs (l : List Char) : List Char :=
  ((l.reverse.dropWhile rustIsWs)).reverse

/-- Rust `str::trim`: drop leading and trailing whitespace. -/
def trimL (l : List Char) : List Char :=
  dropTrailWs (l.dropWhile rustIsWs)

/-- Rust `str::split(' ')` : split on every single space character;
an empty input yields one empty token, adjacent separators yield empty
tokens. -/
def splitSp : List Char → List (List Char)
  | [] => [[]]
  | c :: rest =>
    if c = ' ' then [] :: splitSp rest
    else
      match splitSp rest with
      | [] => [[c]]
      | t :: ts => (c :: t) :: ts

/-- `BufRead::read_line` / `read_until('\n')`: the line starting at the
current position, including the terminating newline when one is present
(at end of file the remainder is returned without a newline). -/
def takeLine : List Char → List Char
  | [] => []
  | c :: rest => if c = '\n' then ['\n'] else c :: takeLine rest

/-- The two record variants of `log_helper.rs`. -/
inductive Record : Type
  | Set : List Char → List Char → Record
  | Remove : List Char → Record
deriving DecidableEq, Repr

/-- The error enum of `error.rs` (payloads irrelevant to control flow are
dropped). -/
inductive KvsError : Type
  | IOError : KvsError
  | SerdeError : KvsError
  | NonExistentKey : List Char → KvsError
  | DeserializeError : KvsError
  | ResponseError : KvsError
deriving DecidableEq, Repr

/-- `LogHelper::serialize`: `set <key> <value>\n` or `rm <key>\n`. -/
def serializeRec : Record → List Char
  | .Set k v => 's' :: 'e' :: 't' :: ' ' :: (k ++ ' ' :: (v ++ ['\n']))
  | .Remove k => 'r' :: 'm' :: ' ' :: (k ++ ['\n'])

/-- The token `set`. -/
def setTok : List Char := ['s', 'e', 't']

/-- The token `rm`. -/
def rmTok : List Char := ['r', 'm']

/-- `LogHelper::deserialize`: trim the line, split on single spaces,
require the exact token shapes `set k v` or `rm k`. -/
def deserializeRec (buf : List Char) : Except KvsError Record :=
  match splitSp (trimL buf) with
  | [] => .error .DeserializeError
  | t0 :: rest =>
    if t0 = setTok then
      match rest with
      | [k, v] => .ok (.Set k v)
      | _ => .error .DeserializeError
    else if t0 = rmTok then
      match rest with
      | [k] => .ok (.Remove k)
      | _ => .error .DeserializeError
    else .error .DeserializeError

/-- The loop body of `LogHelper::read_all`, with an explicit fuel bound
(each iteration consumes at least one character, so fuel equal to the
remaining length always suffices; `parseAllFrom` below supplies it). -/
def parseFuel : Nat → List Char → Nat → Except KvsError (List (Record × Nat))
  | _, [], _ => .ok []
  | 0, _ :: _, _ => .error .DeserializeError
  | fuel + 1, c :: rest, off =>
    let line := takeLine (c :: rest)
    match deserializeRec line with
    | .error e => .error e
    | .ok r =>
      match parseFuel fuel ((c :: rest).drop line.length) (off + line.length) with
      | .error e => .error e
      | .ok tail => .ok ((r, off) :: tail)

/-- `LogHelper::read_all`, inner loop: decode the whole content of a file
into records paired with the offset of their first character. -/
def parseAllFrom (c : List Char) (off : Nat) :
    Except KvsError (List (Record × Nat)) :=
  parseFuel c.length c off

/-- Results are compared in tests and witnesses, so equality of
`Except` values must be decidable. -/
instance {ε α : Type} [DecidableEq ε] [DecidableEq α] :
    DecidableEq (Except ε α) := fun a b =>
  match a, b with
  | .error e1, .error e2 =>
    if h : e1 = e2 then .isTrue (by rw [h])
    else .isFalse (by intro hc; injection hc with hc; exact h hc)
  | .error _, .ok _ => .isFalse (by intro hc; injection hc)
  | .ok _, .error _ => .isFalse (by intro hc; injection hc)
  | .ok a1, .ok a2 =>
    if h : a1 = a2 then .isTrue (by rw [h])
    else .isFalse (by intro hc; injection hc with hc; exact h hc)

/-- Association-list lookup (the model of both `HashMap::get` and
"does file `n` exist in the directory"). -/
def alGet {α β : Type} [DecidableEq α] : List (α × β) → α → Option β
  | [], _ => none
  | (a2, b) :: rest, a => if a2 = a then some b else alGet rest a

/-- Association-list update: replace the binding in place, or append a
new one (the model of `HashMap::insert` and of writing a file). -/
def alSet {α β : Type} [DecidableEq α] : List (α × β) → α → β → List (α × β)
  | [], a, b => [(a, b)]
  | (a2, b2) :: rest, a, b =>
    if a2 = a then (a2, b) :: rest else (a2, b2) :: alSet rest a b

/-- Association-list removal of every binding of a key (for lists with
distinct keys — the only ones the engine ever builds — this is exactly
`HashMap::remove` / `fs::remove_file`). -/
def alDel {α β : Type} [DecidableEq α] : List (α × β) → α → List (α × β)
  | [], _ => []
  | (a2, b) :: rest, a => if a2 = a then alDel rest a else (a2, b) :: alDel rest a

/-- `FileIndex` of `log_helper.rs`: the path (identified by the segment
number) and the offset of the first character of a record. -/
structure FileIndex : Type where
  num : Nat
  offset : Nat
deriving DecidableEq, Repr

/-- The data directory: segment number to file content. -/
abbrev Files : Type := List (Nat × List Char)

/-- The index: key to `FileIndex`. -/
abbrev Idx : Type := List (List Char × FileIndex)

/-- `LogHelper::read`, first half: open the file, seek to the offset,
read one line.  A missing file is an I/O error; seeking at or past the
end yields the empty line. -/
def readLineAt (d : Files) (fi : FileIndex) : Except KvsError (List Char) :=
  match alGet d fi.num with
  | none => .error .IOError
  | some c => .ok (takeLine (c.drop fi.offset))

/-- `LogHelper::read`: read one line at the index and decode it. -/
def readAt (d : Files) (fi : FileIndex) : Except KvsError Record :=
  match readLineAt d fi with
  | .error e => .error e
  | .ok line => deserializeRec line

/-- Append raw characters to a file (append-mode handle: the file is
created empty when absent). -/
def extendFile (d : Files) (n : Nat) (x : List Char) : Files :=
  alSet d n (((alGet d n).getD []) ++ x)

/-- `LogHelper::write`: the returned offset is the file length before
the append (`metadata().len()` on an append-mode handle). -/
def writeRec (d : Files) (n : Nat) (r : Record) : FileIndex × Files :=
  (⟨n, ((alGet d n).getD []).length⟩, extendFile d n (serializeRec r))

/-- `MAX_LOG_SIZE` (`1 << 20`). -/
def MAX_LOG_SIZE : Nat := 1 <<< 20

/-- `MAX_UNCOMPACTED_SIZE` (`1 << 10`). -/
def MAX_UNCOMPACTED_SIZE : Nat := 1 <<< 10

/-- The `KvStore` struct.  `cur_file`/`cur_path` are determined by
`file_count` (they always name segment `file_count`), so they are not
separate fields here. -/
structure KvStore : Type where
  file_count : Nat
  files : Files
  idx : Idx
  uncompacted : Nat
deriving DecidableEq, Repr

/-- `KvStore::new_file`: bump the segment counter and open (create) the
new active segment.  `OpenOptions::create(true).append(true)` keeps the
content of a file that already exists. -/
def newFile (st : KvStore) : KvStore :=
  let fc := st.file_count + 1
  { st with
    file_count := fc
    files := if (alGet st.files fc).isSome then st.files else alSet st.files fc [] }

/-- `KvStore::check_if_new_file`: rotate when the active segment is
strictly larger than `MAX_LOG_SIZE`. -/
def checkIfNewFile (st : KvStore) : KvStore :=
  if ((alGet st.files st.file_count).getD []).length > MAX_LOG_SIZE then newFile st
  else st

/-- The loop body of `KvStore::compact`: read every indexed record and
append it to segment `n`, updating each index entry in place.  On a read
error the loop stops (`?`), leaving the already-processed prefix
updated, exactly like the source. -/
def compactLoop (n : Nat) :
    Idx → Files → Except KvsError Unit × Idx × Files
  | [], files => (.ok (), [], files)
  | (k, fi) :: rest, files =>
    match readAt files fi with
    | .error e => (.error e, (k, fi) :: rest, files)
    | .ok r =>
      let p := writeRec files n r
      let q := compactLoop n rest p.2
      (q.1, (k, p.1) :: q.2.1, q.2.2)

/-- The deletion loop of `KvStore::compact`: remove segments `1..=old`
(a missing file is skipped). -/
def delUpTo (d : Files) (old : Nat) : Files :=
  (List.range old).foldl (fun fs i => alDel fs (i + 1)) d

/-- `KvStore::compact`. -/
def compactOp (st : KvStore) : Except KvsError Unit × KvStore :=
  let st1 := { st with uncompacted := 0 }
  let old := st1.file_count
  let st2 := newFile st1
  let q := compactLoop st2.file_count st2.idx st2.files
  let st3 := { st2 with idx := q.2.1, files := q.2.2 }
  match q.1 with
  | .error e => (.error e, st3)
  | .ok _ => (.ok (), { st3 with files := delUpTo st3.files old })

/-- `KvStore::record_uncompact`: bump the counter and compact at the
threshold. -/
def recordUncompact (st : KvStore) : Except KvsError Unit × KvStore :=
  let st1 := { st with uncompacted := st.uncompacted + 1 }
  if st1.uncompacted ≥ MAX_UNCOMPACTED_SIZE then compactOp st1
  else (.ok (), st1)

/-- `KvStore::set`. -/
def setOp (st : KvStore) (key value : List Char) :
    Except KvsError Unit × KvStore :=
  let st1 := checkIfNewFile st
  let p := writeRec st1.files st1.file_count (.Set key value)
  let st2 := { st1 with files := p.2 }
  match alGet st2.idx key with
  | some _ =>
    recordUncompact
      { st2 with idx := alSet st2.idx key p.1,
                 uncompacted := st2.uncompacted + 1 }
  | none => (.ok (), { st2 with idx := alSet st2.idx key p.1 })

/-- `KvStore::remove`. -/
def removeOp (st : KvStore) (key : List Char) :
    Except KvsError Unit × KvStore :=
  match alGet st.idx key with
  | none => (.error (.NonExistentKey key), st)
  | some _ =>
    let st1 := checkIfNewFile { st with idx := alDel st.idx key }
    let p := writeRec st1.files st1.file_count (.Remove key)
    recordUncompact { st1 with files := p.2 }

/-- `KvStore::get`, with the resulting store returned explicitly to make
the frame property statable (`get` takes `&self` in the source). -/
def getS (st : KvStore) (key : List Char) :
    Except KvsError (Option (List Char)) × KvStore :=
  match alGet st.idx key with
  | none => (.ok none, st)
  | some fi =>
    match readAt st.files fi with
    | .error e => (.error e, st)
    | .ok r =>
      match r with
      | .Set _ v => (.ok (some v), st)
      | _ => (.ok none, st)

/-- The value component of `get`. -/
def getOp (st : KvStore) (key : List Char) :
    Except KvsError (Option (List Char)) :=
  (getS st key).1

/-- The replay fold of `KvStore::open` over the records of one segment:
a `Set` whose key was already present, and every `Remove`, bump the
stale counter. -/
def replayRecords (num : Nat) :
    Idx → Nat → List (Record × Nat) → Idx × Nat
  | idx, unc, [] => (idx, unc)
  | idx, unc, (r, off) :: rest =>
    match r with
    | .Set k _ =>
      replayRecords num (alSet idx k ⟨num, off⟩)
        (if (alGet idx k).isSome then unc + 1 else unc) rest
    | .Remove k => replayRecords num (alDel idx k) (unc + 1) rest

/-- The replay of `KvStore::open` over segments `1..=fc`, in ascending
order; a missing segment number is skipped (`file_path.exists()`). -/
def replayUpTo (d : Files) : Nat → Except KvsError (Idx × Nat)
  | 0 => .ok ([], 0)
  | n + 1 =>
    match replayUpTo d n with
    | .error e => .error e
    | .ok (idx, unc) =>
      match alGet d (n + 1) with
      | none => .ok (idx, unc)
      | some c =>
        match parseAllFrom c 0 with
        | .error e => .error e
        | .ok recs => .ok (replayRecords (n + 1) idx unc recs)

/-- `KvStore::open` on a directory already keyed by segment number:
determine the largest segment number (at least `1`), create the active
segment when absent, replay every segment. -/
def openStore (d : Files) : Except KvsError KvStore :=
  let fc0 := d.foldl (fun acc p => if p.1 > acc then p.1 else acc) 0
  let fc := if fc0 < 1 then 1 else fc0
  let d2 := if (alGet d fc).isSome then d else alSet d fc []
  match replayUpTo d2 fc with
  | .error e => .error e
  | .ok (idx, unc) =>
    .ok { file_count := fc, files := d2, idx := idx, uncompacted := unc }

/-- A client operation. -/
inductive Op : Type
  | set : List Char → List Char → Op
  | rm : List Char → Op
deriving DecidableEq, Repr

/-- Apply one operation. -/
def applyOp (st : KvStore) : Op → Except KvsError Unit × KvStore
  | .set k v => setOp st k v
  | .rm k => removeOp st k

/-- Apply a sequence of operations, stopping at the first failure. -/
def runOps (st : KvStore) : List Op → Except KvsError Unit × KvStore
  | [] => (.ok (), st)
  | op :: rest =>
    match applyOp st op with
    | (.ok _, st1) => runOps st1 rest
    | (e, st1) => (e, st1)

/-- Decimal value of an all-ASCII-digit token, as used by Rust's
`i32::from_str` after the optional sign. -/
def digitsValue (ds : List Char) : Option Nat :=
  if ds = [] then none
  else
    ds.foldl
      (fun acc c =>
        match acc with
        | none => none
        | some a => if c.isDigit then some (a * 10 + (c.toNat - 48)) else none)
      (some 0)

/-- Rust `str::parse::<i32>`: optional single sign, one or more ASCII
digits (leading zeros allowed), value within the `i32` range. -/
def parseI32 (s : List Char) : Option Int :=
  match s with
  | '+' :: ds =>
    match digitsValue ds with
    | none => none
    | some n => if n ≤ 2 ^ 31 - 1 then some (n : Int) else none
  | '-' :: ds =>
    match digitsValue ds with
    | none => none
    | some n => if n ≤ 2 ^ 31 then some (-(n : Int)) else none
  | ds =>
    match digitsValue ds with
    | none => none
    | some n => if n ≤ 2 ^ 31 - 1 then some (n : Int) else none

/-- Rust `str::strip_suffix(".log")`. -/
def stripLog (name : List Char) : Option (List Char) :=
  if name.length ≥ 4 ∧ name.drop (name.length - 4) = ['.', 'l', 'o', 'g'] then
    some (name.take (name.length - 4))
  else none

/-- The number a directory entry contributes to segment discovery:
strip `.log`, parse the stem as an `i32`. -/
def nameVal (name : List Char) : Option Int :=
  match stripLog name with
  | none => none
  | some stem => parseI32 stem

/-- The scanning loop of `KvStore::open` over the names of the files
found in (and, via `WalkDir`, anywhere under) the data directory. -/
def scanMax (names : List (List Char)) : Int :=
  names.foldl
    (fun acc name =>
      match nameVal name with
      | none => acc
      | some n => if n > acc then n else acc)
    0

/-- The active segment number `KvStore::open` derives from the directory
listing: the scan result, floored at `1`. -/
def discoverCount (names : List (List Char)) : Int :=
  if scanMax names < 1 then 1 else scanMax names

/-- Modelled from the spec: the discovery rule the specification states,
over the same flat list of names — the largest `N` over names matching
`[1-9][0-9]*\.log` (a decimal stem without leading zeros), or `1` when
no name matches. -/
def specStemValue (stem : List Char) : Option Nat :=
  if stem ≠ [] ∧ (∀ c ∈ stem, c.isDigit) ∧ stem.head? ≠ some '0' then
    digitsValue stem
  else none

/-- Modelled from the spec: the active segment number according to the
specification's regex-based discovery rule. -/
def specDiscover (names : List (List Char)) : Int :=
  let vals := names.filterMap (fun name =>
    match stripLog name with
    | none => none
    | some stem => specStemValue stem)
  match vals.foldr (fun v acc => max (v : Int) acc) 0 with
  | m => if m < 1 then 1 else m

/-- The wire-format constraint on keys and values, strengthened with
what the `trim` in `deserialize` actually requires: non-empty, no space,
no newline, and no trailing whitespace character. -/
def cleanStr (s : List Char) : Prop :=
  s ≠ [] ∧ ' ' ∉ s ∧ '\n' ∉ s ∧ ∀ c, s.getLast? = some c → rustIsWs c = false

instance (s : List Char) : Decidable (cleanStr s) := by
  unfold cleanStr; infer_instance

/-- An operation whose strings satisfy `cleanStr`. -/
def cleanOp : Op → Prop
  | .set k v => cleanStr k ∧ cleanStr v
  | .rm k => cleanStr k

instance : DecidablePred cleanOp := fun op =>
  match op with
  | .set k v => inferInstanceAs (Decidable (cleanStr k ∧ cleanStr v))
  | .rm k => inferInstanceAs (Decidable (cleanStr k))

/-- A well-formed record line: newline-terminated, no interior newline,
and decodable. -/
def goodLine (l : List Char) : Prop :=
  (∃ p, l = p ++ ['\n'] ∧ '\n' ∉ p) ∧ ∃ r, deserializeRec l = .ok r

/-- A well-formed file content: a concatenation of well-formed record
lines. -/
inductive WfChunks : List Char → Prop
  | nil : WfChunks []
  | cons (l rest : List Char) : goodLine l → WfChunks rest →
      WfChunks (l ++ rest)

/-- A directory every file of which is well-formed, with distinct
segment numbers. -/
def WfDir (d : Files) : Prop :=
  (d.map Prod.fst).Nodup ∧ ∀ p ∈ d, WfChunks p.2

/-- A healthy index entry: the addressed file exists, the line at the
offset is newline-terminated, and it decodes to a `Set` record whose key
is the indexed key. -/
def GoodEntry (d : Files) (k : List Char) (fi : FileIndex) : Prop :=
  ∃ c, alGet d fi.num = some c ∧
    (takeLine (c.drop fi.offset)).getLast? = some '\n' ∧
    ∃ v, deserializeRec (takeLine (c.drop fi.offset)) = .ok (.Set k v)

/-- The core invariant of the engine: index keys are distinct and every
index entry is healthy. -/
def CoreInv (st : KvStore) : Prop :=
  (st.idx.map Prod.fst).Nodup ∧
  ∀ k fi, alGet st.idx k = some fi → GoodEntry st.files k fi

/-- The invariant claimed by the specification: every index entry
dereferences to a `Set` record with matching key. -/
def GoodIdx (st : KvStore) : Prop :=
  ∀ k fi, alGet st.idx k = some fi → ∃ v, readAt st.files fi = .ok (.Set k v)

/-- The well-formedness of the persistent half of an engine state: every
file is a segment numbered between `1` and the active segment, the
active segment exists, and every file parses. -/
structure WfFiles (fc : Nat) (files : Files) : Prop where
  fc_pos : 1 ≤ fc
  keys_le : ∀ p ∈ files, 1 ≤ p.1 ∧ p.1 ≤ fc
  nodup : (files.map Prod.fst).Nodup
  cur_present : (alGet files fc).isSome
  wf : ∀ p ∈ files, WfChunks p.2

/-- The full invariant of a running engine, tying the persistent state
to the in-memory state: the directory is well-formed and bounded by the
active segment, the index is healthy with clean keys, and replaying the
directory reproduces the index (recomputing the stale counter). -/
structure WfStore (st : KvStore) : Prop where
  wff : WfFiles st.file_count st.files
  idx_nodup : (st.idx.map Prod.fst).Nodup
  idx_good : ∀ k fi, alGet st.idx k = some fi → GoodEntry st.files k fi
  idx_keys_clean : ∀ p ∈ st.idx, cleanStr p.1
  replay_eq : ∃ u, replayUpTo st.files st.file_count = .ok (st.idx, u)

/-! ### Line and token lemmas -/

lemma takeLine_ne_nil {c : List Char} (h : c ≠ []) : takeLine c ≠ [] := by
  cases c with
  | nil => exact absurd rfl h
  | cons a l => simp only [takeLine]; split <;> simp

lemma takeLine_of_no_nl {l : List Char} (h : '\n' ∉ l) : takeLine l = l := by
  induction l with
  | nil => rfl
  | cons a t ih =>
    simp only [takeLine]
    rw [if_neg (by simp at h; intro hc; exact h.1 hc.symm)]
    rw [ih (by simp at h; exact fun hc => h.2 hc)]

lemma takeLine_append_nl {p : List Char} (h : '\n' ∉ p) (rest : List Char) :
    takeLine (p ++ '\n' :: rest) = p ++ ['\n'] := by
  induction p with
  | nil => simp [takeLine]
  | cons a t ih =>
    simp only [List.cons_append, takeLine, List.append_eq]
    rw [if_neg (by simp at h; intro hc; exact h.1 hc.symm)]
    rw [ih (by simp at h; exact fun hc => h.2 hc)]

lemma takeLine_shape (c : List Char) :
    ('\n' ∉ takeLine c ∧ takeLine c = c) ∨
    ∃ p, takeLine c = p ++ ['\n'] ∧ '\n' ∉ p := by
  induction c with
  | nil => left; exact ⟨by simp [takeLine], rfl⟩
  | cons a t ih =>
    simp only [takeLine]
    by_cases ha : a = '\n'
    · right; rw [if_pos ha]; exact ⟨[], by simp⟩
    · rw [if_neg ha]
      rcases ih with ⟨h1, h2⟩ | ⟨p, hp, hnp⟩
      · left
        constructor
        · simp; exact ⟨fun hc => ha hc.symm, h1⟩
        · rw [h2]
      · right
        exact ⟨a :: p, by rw [hp]; rfl, by simp; exact ⟨fun hc => ha hc.symm, hnp⟩⟩

lemma takeLine_getLast_shape {c : List Char}
    (h : (takeLine c).getLast? = some '\n') :
    ∃ p, takeLine c = p ++ ['\n'] ∧ '\n' ∉ p := by
  rcases takeLine_shape c with ⟨h1, _⟩ | hp
  · exfalso
    apply h1
    have : '\n' ∈ (takeLine c).reverse := by
      rw [← List.head?_reverse] at h
      cases hr : (takeLine c).reverse with
      | nil => rw [hr] at h; simp at h
      | cons x xs => rw [hr] at h; simp at h; simp [h]
    simpa using this
  · exact hp

lemma takeLine_append_stable {l : List Char}
    (h : (takeLine l).getLast? = some '\n') (x : List Char) :
    takeLine (l ++ x) = takeLine l := by
  induction l with
  | nil => simp [takeLine] at h
  | cons a t ih =>
    by_cases ha : a = '\n'
    · simp only [List.cons_append, takeLine, if_pos ha]
    · simp only [takeLine, if_neg ha] at h
      simp only [List.cons_append, takeLine, if_neg ha, List.append_eq]
      congr 1
      apply ih
      cases ht : takeLine t with
      | nil => rw [ht] at h; simp at h; exact absurd h ha
      | cons u us =>
        rw [ht] at h
        rw [List.getLast?_cons_cons] at h
        exact h

lemma splitSp_ne_nil (s : List Char) : splitSp s ≠ [] := by
  cases s with
  | nil => simp [splitSp]
  | cons a t =>
    simp only [splitSp]
    split
    · simp
    · split <;> simp

lemma splitSp_no_space {a : List Char} (h : ' ' ∉ a) : splitSp a = [a] := by
  induction a with
  | nil => rfl
  | cons c t ih =>
    simp only [splitSp]
    rw [if_neg (by simp at h; intro hc; exact h.1 hc.symm)]
    rw [ih (by simp at h; exact fun hc => h.2 hc)]

lemma splitSp_append_space {a : List Char} (h : ' ' ∉ a) (b : List Char) :
    splitSp (a ++ ' ' :: b) = a :: splitSp b := by
  induction a with
  | nil => simp [splitSp]
  | cons c t ih =>
    simp only [List.cons_append, splitSp, List.append_eq]
    rw [if_neg (by simp at h; intro hc; exact h.1 hc.symm)]
    rw [ih (by simp at h; exact fun hc => h.2 hc)]

lemma mem_splitSp_subset {t s : List Char} (ht : t ∈ splitSp s) :
    ∀ c ∈ t, c ∈ s := by
  induction s generalizing t with
  | nil =>
    simp [splitSp] at ht
    subst ht; simp
  | cons a r ih =>
    simp only [splitSp] at ht
    by_cases ha : a = ' '
    · rw [if_pos ha] at ht
      rcases List.mem_cons.mp ht with h1 | h2
      · subst h1; simp
      · intro c hc; exact List.mem_cons_of_mem a (ih h2 c hc)
    · rw [if_neg ha] at ht
      cases hb : splitSp r with
      | nil => exact absurd hb (splitSp_ne_nil r)
      | cons x xs =>
        rw [hb] at ht
        rcases List.mem_cons.mp ht with h1 | h2
        · subst h1
          intro c hc
          rcases List.mem_cons.mp hc with h3 | h4
          · subst h3; simp
          · exact List.mem_cons_of_mem a (ih (by rw [hb]; simp) c h4)
        · intro c hc
          exact List.mem_cons_of_mem a (ih (by rw [hb]; exact List.mem_cons_of_mem x h2) c hc)

lemma mem_splitSp_no_space {t s : List Char} (ht : t ∈ splitSp s) : ' ' ∉ t := by
  induction s generalizing t with
  | nil =>
    simp [splitSp] at ht; subst ht; simp
  | cons a r ih =>
    simp only [splitSp] at ht
    by_cases ha : a = ' '
    · rw [if_pos ha] at ht
      rcases List.mem_cons.mp ht with h1 | h2
      · subst h1; simp
      · exact ih h2
    · rw [if_neg ha] at ht
      cases hb : splitSp r with
      | nil => exact absurd hb (splitSp_ne_nil r)
      | cons x xs =>
        rw [hb] at ht
        rcases List.mem_cons.mp ht with h1 | h2
        · subst h1
          intro hc
          rcases List.mem_cons.mp hc with h3 | h4
          · exact ha h3.symm
          · exact ih (by rw [hb]; simp) h4
        · exact ih (by rw [hb]; exact List.mem_cons_of_mem x h2)

lemma splitSp_cons_eq (a : Char) (r : List Char) :
    splitSp (a :: r) =
      if a = ' ' then [] :: splitSp r
      else
        match splitSp r with
        | [] => [[a]]
        | t :: ts => (a :: t) :: ts := rfl

lemma splitSp_getLast {s : List Char} {ch : Char}
    (h : s.getLast? = some ch) (hch : ch ≠ ' ') :
    ∃ t, (splitSp s).getLast? = some t ∧ t.getLast? = some ch := by
  induction s with
  | nil => simp at h
  | cons a r ih =>
    cases r with
    | nil =>
      simp at h
      subst h
      rw [splitSp_cons_eq, if_neg hch]
      simp [splitSp]
    | cons b q =>
      rw [List.getLast?_cons_cons] at h
      obtain ⟨t, ht1, ht2⟩ := ih h
      rw [splitSp_cons_eq]
      by_cases ha : a = ' '
      · rw [if_pos ha]
        refine ⟨t, ?_, ht2⟩
        cases hb : splitSp (b :: q) with
        | nil => exact absurd hb (splitSp_ne_nil _)
        | cons x xs =>
          rw [hb] at ht1
          rw [List.getLast?_cons_cons]
          exact ht1
      · rw [if_neg ha]
        cases hb : splitSp (b :: q) with
        | nil => exact absurd hb (splitSp_ne_nil _)
        | cons x xs =>
          rw [hb] at ht1
          cases xs with
          | nil =>
            simp at ht1
            subst ht1
            refine ⟨a :: x, by simp, ?_⟩
            cases x with
            | nil => simp at ht2
            | cons u us => rw [List.getLast?_cons_cons]; exact ht2
          | cons y ys =>
            refine ⟨t, ?_, ht2⟩
            simp only
            rw [List.getLast?_cons_cons]
            rw [List.getLast?_cons_cons] at ht1
            exact ht1

/-! ### Trim lemmas -/

lemma head_dropWhile_not {p : Char → Bool} {l : List Char} {c : Char}
    (h : (l.dropWhile p).head? = some c) : p c = false := by
  induction l with
  | nil => simp [List.dropWhile] at h
  | cons a t ih =>
    rw [List.dropWhile_cons] at h
    split at h
    · exact ih h
    · simp at h; subst h; simp_all

lemma dropTrailWs_getLast_not_ws {l : List Char} {c : Char}
    (h : (dropTrailWs l).getLast? = some c) : rustIsWs c = false := by
  unfold dropTrailWs at h
  rw [← List.head?_reverse, List.reverse_reverse] at h
  exact head_dropWhile_not h

lemma dropWhile_eq_self_of_head {p : Char → Bool} {l : List Char}
    (h : ∀ c, l.head? = some c → p c = false) : l.dropWhile p = l := by
  cases l with
  | nil => rfl
  | cons a t =>
    rw [List.dropWhile_cons, if_neg]
    simp [h a rfl]

lemma dropTrailWs_eq_self {l : List Char}
    (h : ∀ c, l.getLast? = some c → rustIsWs c = false) : dropTrailWs l = l := by
  unfold dropTrailWs
  rw [dropWhile_eq_self_of_head, List.reverse_reverse]
  intro c hc
  exact h c (by rw [← List.head?_reverse]; exact hc)

lemma dropWhile_append_of_ne_nil {p : Char → Bool} {a : List Char}
    (h : a.dropWhile p ≠ []) (b : List Char) :
    (a ++ b).dropWhile p = a.dropWhile p ++ b := by
  rw [List.dropWhile_append]
  rw [if_neg (by simp only [List.isEmpty_iff]; exact h)]

lemma dropTrailWs_append {a b : List Char} (h : dropTrailWs b ≠ []) :
    dropTrailWs (a ++ b) = a ++ dropTrailWs b := by
  unfold dropTrailWs at *
  rw [List.reverse_append]
  rw [dropWhile_append_of_ne_nil (by
    intro hc
    exact h (by rw [hc]; rfl)) a.reverse]
  rw [List.reverse_append, List.reverse_reverse]

lemma dropTrailWs_append_ws {a : List Char} {c : Char} (h : rustIsWs c = true) :
    dropTrailWs (a ++ [c]) = dropTrailWs a := by
  unfold dropTrailWs
  rw [List.reverse_append]
  simp only [List.reverse_cons, List.reverse_nil, List.nil_append,
    List.singleton_append, List.dropWhile_cons]
  rw [if_pos (by simp [h])]

lemma dropTrailWs_sublist (l : List Char) : List.Sublist (dropTrailWs l) l := by
  unfold dropTrailWs
  have h1 : List.Sublist (l.reverse.dropWhile rustIsWs) l.reverse :=
    List.dropWhile_sublist rustIsWs
  have h2 := h1.reverse
  rwa [List.reverse_reverse] at h2

lemma trimL_sublist (l : List Char) : List.Sublist (trimL l) l := by
  unfold trimL
  exact (dropTrailWs_sublist _).trans (List.dropWhile_sublist rustIsWs)

lemma trimL_getLast_not_ws {l : List Char} {c : Char}
    (h : (trimL l).getLast? = some c) : rustIsWs c = false :=
  dropTrailWs_getLast_not_ws h

lemma trimL_append_nl {p : List Char} : trimL (p ++ ['\n']) = trimL p := by
  unfold trimL
  by_cases hp : p.dropWhile rustIsWs = []
  · rw [List.dropWhile_append, if_pos (by simp only [List.isEmpty_iff]; exact hp), hp]
    simp [List.dropWhile, rustIsWs, dropTrailWs]
  · rw [dropWhile_append_of_ne_nil hp, dropTrailWs_append_ws (by decide)]

/-! ### Serialization round-trip lemmas -/

lemma serializeRec_set_eq (k v : List Char) :
    serializeRec (.Set k v) =
      ('s' :: 'e' :: 't' :: ' ' :: (k ++ ' ' :: v)) ++ ['\n'] := by
  simp [serializeRec]

lemma serializeRec_rm_eq (k : List Char) :
    serializeRec (.Remove k) = ('r' :: 'm' :: ' ' :: k) ++ ['\n'] := by
  simp [serializeRec]

lemma trimL_serializeRec_set {k v : List Char}
    (hv1 : dropTrailWs v = v) (hv2 : v ≠ []) :
    trimL (serializeRec (.Set k v)) = setTok ++ ' ' :: (k ++ ' ' :: v) := by
  have h1 : serializeRec (.Set k v) =
      ('s' :: 'e' :: 't' :: ' ' :: (k ++ [' '])) ++ (v ++ ['\n']) := by
    simp [serializeRec]
  rw [h1]
  unfold trimL
  rw [dropWhile_eq_self_of_head (by intro c hc; simp at hc; subst hc; decide)]
  rw [dropTrailWs_append (by rw [dropTrailWs_append_ws (by decide), hv1]; exact hv2)]
  rw [dropTrailWs_append_ws (by decide), hv1]
  simp [setTok]

lemma trimL_serializeRec_rm {k : List Char}
    (hk1 : dropTrailWs k = k) (hk2 : k ≠ []) :
    trimL (serializeRec (.Remove k)) = rmTok ++ ' ' :: k := by
  have h1 : serializeRec (.Remove k) =
      ('r' :: 'm' :: [' ']) ++ (k ++ ['\n']) := by
    simp [serializeRec]
  rw [h1]
  unfold trimL
  rw [dropWhile_eq_self_of_head (by intro c hc; simp at hc; subst hc; decide)]
  rw [dropTrailWs_append (by rw [dropTrailWs_append_ws (by decide), hk1]; exact hk2)]
  rw [dropTrailWs_append_ws (by decide), hk1]
  simp [rmTok]

lemma deserializeRec_serializeRec_set {k v : List Char}
    (hk : ' ' ∉ k) (hv : ' ' ∉ v) (hv1 : dropTrailWs v = v) (hv2 : v ≠ []) :
    deserializeRec (serializeRec (.Set k v)) = .ok (.Set k v) := by
  have htok : splitSp (trimL (serializeRec (.Set k v))) = [setTok, k, v] := by
    rw [trimL_serializeRec_set hv1 hv2]
    rw [splitSp_append_space (by decide)]
    rw [splitSp_append_space hk]
    rw [splitSp_no_space hv]
  unfold deserializeRec
  rw [htok]
  simp

lemma deserializeRec_serializeRec_rm {k : List Char}
    (hk : ' ' ∉ k) (hk1 : dropTrailWs k = k) (hk2 : k ≠ []) :
    deserializeRec (serializeRec (.Remove k)) = .ok (.Remove k) := by
  have htok : splitSp (trimL (serializeRec (.Remove k))) = [rmTok, k] := by
    rw [trimL_serializeRec_rm hk1 hk2]
    rw [splitSp_append_space (by decide)]
    rw [splitSp_no_space hk]
  unfold deserializeRec
  rw [htok]
  simp [rmTok, setTok]

lemma cleanStr_dropTrailWs {s : List Char} (h : cleanStr s) :
    dropTrailWs s = s :=
  dropTrailWs_eq_self h.2.2.2

lemma deserializeRec_serializeRec_set_clean {k v : List Char}
    (hk : cleanStr k) (hv : cleanStr v) :
    deserializeRec (serializeRec (.Set k v)) = .ok (.Set k v) :=
  deserializeRec_serializeRec_set hk.2.1 hv.2.1 (cleanStr_dropTrailWs hv) hv.1

lemma deserializeRec_serializeRec_rm_clean {k : List Char} (hk : cleanStr k) :
    deserializeRec (serializeRec (.Remove k)) = .ok (.Remove k) :=
  deserializeRec_serializeRec_rm hk.2.1 (cleanStr_dropTrailWs hk) hk.1

/-! ### Decoder inversion lemmas -/

lemma deserializeRec_ok_set_inv {l k v : List Char}
    (h : deserializeRec l = .ok (.Set k v)) :
    splitSp (trimL l) = [setTok, k, v] := by
  unfold deserializeRec at h
  cases hs : splitSp (trimL l) with
  | nil => rw [hs] at h; simp at h
  | cons t0 rest =>
    rw [hs] at h
    dsimp only at h
    by_cases h0 : t0 = setTok
    · rw [if_pos h0] at h
      subst h0
      match rest with
      | [] => simp at h
      | [a] => simp at h
      | [a, b] =>
        simp at h
        rw [h.1, h.2]
      | a :: b :: c :: r => simp at h
    · rw [if_neg h0] at h
      by_cases h1 : t0 = rmTok
      · rw [if_pos h1] at h
        match rest with
        | [] => simp at h
        | [a] => simp at h
        | a :: b :: r => simp at h
      · rw [if_neg h1] at h
        simp at h

lemma deserializeRec_ok_rm_inv {l k : List Char}
    (h : deserializeRec l = .ok (.Remove k)) :
    splitSp (trimL l) = [rmTok, k] := by
  unfold deserializeRec at h
  cases hs : splitSp (trimL l) with
  | nil => rw [hs] at h; simp at h
  | cons t0 rest =>
    rw [hs] at h
    dsimp only at h
    by_cases h0 : t0 = setTok
    · rw [if_pos h0] at h
      match rest with
      | [] => simp at h
      | [a] => simp at h
      | [a, b] => simp at h
      | a :: b :: c :: r => simp at h
    · rw [if_neg h0] at h
      by_cases h1 : t0 = rmTok
      · rw [if_pos h1] at h
        subst h1
        match rest with
        | [] => simp at h
        | [a] => simp at h; rw [h]
        | a :: b :: r => simp at h
      · rw [if_neg h1] at h
        simp at h

lemma getLast_isSome_of_ne_nil {l : List Char} (h : l ≠ []) :
    ∃ c, l.getLast? = some c := by
  cases l with
  | nil => exact absurd rfl h
  | cons a t => exact ⟨(a :: t).getLast (by simp), List.getLast?_eq_getLast _ _⟩

/-- Tokens decoded from a newline-terminated line are themselves clean
enough to round-trip: this is what keeps compaction faithful. -/
lemma good_set_line_roundtrip {l p k v : List Char}
    (hp : l = p ++ ['\n']) (hnp : '\n' ∉ p)
    (hok : deserializeRec l = .ok (.Set k v)) :
    ' ' ∉ k ∧ ' ' ∉ v ∧ '\n' ∉ k ∧ '\n' ∉ v ∧ v ≠ [] ∧
    deserializeRec (serializeRec (.Set k v)) = .ok (.Set k v) := by
  have htok := deserializeRec_ok_set_inv hok
  have hkmem : k ∈ splitSp (trimL l) := by rw [htok]; simp
  have hvmem : v ∈ splitSp (trimL l) := by rw [htok]; simp
  have hksp : ' ' ∉ k := mem_splitSp_no_space hkmem
  have hvsp : ' ' ∉ v := mem_splitSp_no_space hvmem
  have htp : trimL l = trimL p := by rw [hp]; exact trimL_append_nl
  have hsub : ∀ c ∈ trimL l, c ∈ p := by
    intro c hc
    rw [htp] at hc
    exact (trimL_sublist p).mem hc
  have hknl : '\n' ∉ k := fun hc => hnp (hsub _ (mem_splitSp_subset hkmem _ hc))
  have hvnl : '\n' ∉ v := fun hc => hnp (hsub _ (mem_splitSp_subset hvmem _ hc))
  have htln : trimL l ≠ [] := by
    intro hnil
    rw [hnil] at htok
    simp [splitSp] at htok
  obtain ⟨ch, hch⟩ := getLast_isSome_of_ne_nil htln
  have hchw : rustIsWs ch = false := trimL_getLast_not_ws hch
  have hchsp : ch ≠ ' ' := by intro hc; subst hc; simp [rustIsWs] at hchw
  obtain ⟨t, ht1, ht2⟩ := splitSp_getLast hch hchsp
  rw [htok] at ht1
  simp at ht1
  subst ht1
  have hvne : v ≠ [] := by intro hc; rw [hc] at ht2; simp at ht2
  have hvdtw : dropTrailWs v = v := by
    apply dropTrailWs_eq_self
    intro c hc
    rw [ht2] at hc
    injection hc with hc
    subst hc
    exact hchw
  exact ⟨hksp, hvsp, hknl, hvnl, hvne,
    deserializeRec_serializeRec_set hksp hvsp hvdtw hvne⟩

lemma goodLine_ser_set {k v : List Char} (hknl : '\n' ∉ k) (hvnl : '\n' ∉ v)
    (hok : deserializeRec (serializeRec (.Set k v)) = .ok (.Set k v)) :
    goodLine (serializeRec (.Set k v)) := by
  constructor
  · refine ⟨'s' :: 'e' :: 't' :: ' ' :: (k ++ ' ' :: v), serializeRec_set_eq k v, ?_⟩
    simp
    exact ⟨hknl, hvnl⟩
  · exact ⟨_, hok⟩

lemma goodLine_ser_rm {k : List Char} (hknl : '\n' ∉ k)
    (hok : deserializeRec (serializeRec (.Remove k)) = .ok (.Remove k)) :
    goodLine (serializeRec (.Remove k)) := by
  constructor
  · refine ⟨'r' :: 'm' :: ' ' :: k, serializeRec_rm_eq k, ?_⟩
    simp
    exact hknl
  · exact ⟨_, hok⟩

/-! ### Association-list lemmas -/

section AssocLemmas

variable {α β : Type} [DecidableEq α]

lemma alGet_alSet_self (l : List (α × β)) (a : α) (b : β) :
    alGet (alSet l a b) a = some b := by
  induction l with
  | nil => simp [alGet, alSet]
  | cons p rest ih =>
    obtain ⟨a2, b2⟩ := p
    simp only [alSet]
    by_cases h : a2 = a
    · rw [if_pos h]; simp [alGet, if_pos h]
    · rw [if_neg h]; simp [alGet, if_neg h, ih]

lemma alGet_alSet_ne (l : List (α × β)) {a a2 : α} (b : β) (h : a2 ≠ a) :
    alGet (alSet l a b) a2 = alGet l a2 := by
  induction l with
  | nil =>
    simp only [alSet, alGet]
    rw [if_neg (fun hc => h hc.symm)]
  | cons p rest ih =>
    obtain ⟨x, y⟩ := p
    simp only [alSet]
    by_cases hx : x = a
    · rw [if_pos hx]
      simp only [alGet]
      subst hx
      rw [if_neg (fun hc => h hc.symm), if_neg (fun hc => h hc.symm)]
    · rw [if_neg hx]
      simp only [alGet]
      by_cases hx2 : x = a2
      · rw [if_pos hx2, if_pos hx2]
      · rw [if_neg hx2, if_neg hx2, ih]

lemma alGet_alDel_self (l : List (α × β)) (a : α) :
    alGet (alDel l a) a = none := by
  induction l with
  | nil => simp [alGet, alDel]
  | cons p rest ih =>
    obtain ⟨x, y⟩ := p
    simp only [alDel]
    by_cases hx : x = a
    · rw [if_pos hx]; exact ih
    · rw [if_neg hx]; simp [alGet, if_neg hx, ih]

lemma alGet_alDel_ne (l : List (α × β)) {a a2 : α} (h : a2 ≠ a) :
    alGet (alDel l a) a2 = alGet l a2 := by
  induction l with
  | nil => simp [alDel]
  | cons p rest ih =>
    obtain ⟨x, y⟩ := p
    simp only [alDel]
    by_cases hx : x = a
    · rw [if_pos hx]
      subst hx
      simp only [alGet]
      rw [if_neg (fun hc : x = a2 => h (by rw [← hc])), ih]
    · rw [if_neg hx]
      simp only [alGet]
      by_cases hx2 : x = a2
      · rw [if_pos hx2, if_pos hx2]
      · rw [if_neg hx2, if_neg hx2, ih]

lemma alGet_mem {l : List (α × β)} {a : α} {b : β} (h : alGet l a = some b) :
    (a, b) ∈ l := by
  induction l with
  | nil => simp [alGet] at h
  | cons p rest ih =>
    obtain ⟨x, y⟩ := p
    simp only [alGet] at h
    by_cases hx : x = a
    · rw [if_pos hx] at h
      injection h with h
      subst hx; subst h
      simp
    · rw [if_neg hx] at h
      exact List.mem_cons_of_mem _ (ih h)

lemma alGet_eq_none_of_not_mem {l : List (α × β)} {a : α}
    (h : a ∉ l.map Prod.fst) : alGet l a = none := by
  induction l with
  | nil => rfl
  | cons p rest ih =>
    obtain ⟨x, y⟩ := p
    simp only [List.map_cons, List.mem_cons] at h
    push_neg at h
    simp only [alGet]
    rw [if_neg (fun hc => h.1 hc.symm)]
    exact ih h.2

lemma mem_alSet {l : List (α × β)} {a : α} {b : β} {p : α × β}
    (h : p ∈ alSet l a b) : p = (a, b) ∨ p ∈ l := by
  induction l with
  | nil => simp [alSet] at h; left; exact h
  | cons q rest ih =>
    obtain ⟨x, y⟩ := q
    simp only [alSet] at h
    by_cases hx : x = a
    · rw [if_pos hx] at h
      rcases List.mem_cons.mp h with h1 | h2
      · subst hx; subst h1; left; rfl
      · right; exact List.mem_cons_of_mem _ h2
    · rw [if_neg hx] at h
      rcases List.mem_cons.mp h with h1 | h2
      · right; subst h1; simp
      · rcases ih h2 with h3 | h4
        · left; exact h3
        · right; exact List.mem_cons_of_mem _ h4

lemma mem_alDel {l : List (α × β)} {a : α} {p : α × β}
    (h : p ∈ alDel l a) : p ∈ l ∧ p.1 ≠ a := by
  induction l with
  | nil => simp [alDel] at h
  | cons q rest ih =>
    obtain ⟨x, y⟩ := q
    simp only [alDel] at h
    by_cases hx : x = a
    · rw [if_pos hx] at h
      exact ⟨List.mem_cons_of_mem _ (ih h).1, (ih h).2⟩
    · rw [if_neg hx] at h
      rcases List.mem_cons.mp h with h1 | h2
      · subst h1; exact ⟨by simp, hx⟩
      · exact ⟨List.mem_cons_of_mem _ (ih h2).1, (ih h2).2⟩

lemma alSet_keys_of_present {l : List (α × β)} {a : α} (b : β)
    (h : (alGet l a).isSome) :
    (alSet l a b).map Prod.fst = l.map Prod.fst := by
  induction l with
  | nil => simp [alGet] at h
  | cons q rest ih =>
    obtain ⟨x, y⟩ := q
    simp only [alGet] at h
    by_cases hx : x = a
    · simp only [alSet, if_pos hx, List.map_cons]
    · rw [if_neg hx] at h
      simp only [alSet, if_neg hx, List.map_cons, ih h]

lemma alSet_keys_of_absent {l : List (α × β)} {a : α} (b : β)
    (h : alGet l a = none) :
    (alSet l a b).map Prod.fst = l.map Prod.fst ++ [a] := by
  induction l with
  | nil => simp [alSet]
  | cons q rest ih =>
    obtain ⟨x, y⟩ := q
    simp only [alGet] at h
    by_cases hx : x = a
    · rw [if_pos hx] at h; simp at h
    · rw [if_neg hx] at h
      simp only [alSet, if_neg hx, List.map_cons, ih h, List.cons_append]

lemma alSet_append_of_absent {l : List (α × β)} {a : α} (b : β)
    (h : alGet l a = none) : alSet l a b = l ++ [(a, b)] := by
  induction l with
  | nil => simp [alSet]
  | cons q rest ih =>
    obtain ⟨x, y⟩ := q
    simp only [alGet] at h
    by_cases hx : x = a
    · rw [if_pos hx] at h; simp at h
    · rw [if_neg hx] at h
      simp only [alSet, if_neg hx, List.cons_append, ih h]

lemma alGet_isSome_of_mem_keys {l : List (α × β)} {a : α}
    (h : a ∈ l.map Prod.fst) : (alGet l a).isSome := by
  induction l with
  | nil => simp at h
  | cons q rest ih =>
    obtain ⟨x, y⟩ := q
    simp only [alGet]
    by_cases hx : x = a
    · rw [if_pos hx]; rfl
    · rw [if_neg hx]
      apply ih
      simp only [List.map_cons, List.mem_cons] at h
      rcases h with h1 | h2
      · exact absurd h1.symm hx
      · exact h2

lemma alSet_nodup_keys {l : List (α × β)} {a : α} (b : β)
    (h : (l.map Prod.fst).Nodup) : ((alSet l a b).map Prod.fst).Nodup := by
  cases hg : alGet l a with
  | some yy =>
    rw [alSet_keys_of_present b (by rw [hg]; rfl)]
    exact h
  | none =>
    rw [alSet_keys_of_absent b hg]
    rw [List.nodup_append]
    refine ⟨h, List.nodup_singleton a, ?_⟩
    intro x hx
    simp only [List.mem_singleton]
    intro hc
    subst hc
    have := alGet_isSome_of_mem_keys hx
    rw [hg] at this
    simp at this

lemma alDel_keys (l : List (α × β)) (a : α) :
    (alDel l a).map Prod.fst = (l.map Prod.fst).filter (fun x => x ≠ a) := by
  induction l with
  | nil => simp [alDel]
  | cons q rest ih =>
    obtain ⟨x, y⟩ := q
    simp only [alDel]
    by_cases hx : x = a
    · rw [if_pos hx]
      simp only [List.map_cons, List.filter_cons]
      rw [if_neg (by simp [hx])]
      exact ih
    · rw [if_neg hx]
      simp only [List.map_cons, List.filter_cons]
      rw [if_pos (by simp [hx])]
      rw [ih]

lemma alDel_nodup_keys {l : List (α × β)} (a : α)
    (h : (l.map Prod.fst).Nodup) : ((alDel l a).map Prod.fst).Nodup := by
  rw [alDel_keys]
  exact h.filter _

end AssocLemmas

/-! ### Deletion-loop and scan lemmas -/

lemma delUpTo_succ (d : Files) (n : Nat) :
    delUpTo d (n + 1) = alDel (delUpTo d n) (n + 1) := by
  unfold delUpTo
  rw [List.range_succ, List.foldl_append]
  rfl

lemma alGet_delUpTo (d : Files) (old m : Nat) :
    alGet (delUpTo d old) m =
      if 1 ≤ m ∧ m ≤ old then none else alGet d m := by
  induction old with
  | zero =>
    rw [if_neg (by omega)]
    rfl
  | succ n ih =>
    rw [delUpTo_succ]
    by_cases hm : m = n + 1
    · subst hm
      rw [alGet_alDel_self, if_pos (by omega)]
    · rw [alGet_alDel_ne _ hm, ih]
      by_cases h1 : 1 ≤ m ∧ m ≤ n
      · rw [if_pos h1, if_pos (by omega)]
      · rw [if_neg h1, if_neg (by omega)]

lemma mem_delUpTo {d : Files} {old : Nat} {p : Nat × List Char}
    (h : p ∈ delUpTo d old) : p ∈ d ∧ ¬(1 ≤ p.1 ∧ p.1 ≤ old) := by
  induction old with
  | zero => exact ⟨h, by omega⟩
  | succ n ih =>
    rw [delUpTo_succ] at h
    obtain ⟨h1, h2⟩ := mem_alDel h
    obtain ⟨h3, h4⟩ := ih h1
    exact ⟨h3, by omega⟩

lemma scan_foldl_ge_acc (d : Files) (acc : Nat) :
    acc ≤ d.foldl (fun acc p => if p.1 > acc then p.1 else acc) acc := by
  induction d generalizing acc with
  | nil => simp
  | cons p rest ih =>
    simp only [List.foldl_cons]
    by_cases hp : p.1 > acc
    · rw [if_pos hp]
      exact le_trans (le_of_lt hp) (ih p.1)
    · rw [if_neg hp]
      exact ih acc

lemma scan_foldl_ge_mem {d : Files} {p : Nat × List Char} (hp : p ∈ d)
    (acc : Nat) :
    p.1 ≤ d.foldl (fun acc p => if p.1 > acc then p.1 else acc) acc := by
  induction d generalizing acc with
  | nil => simp at hp
  | cons q rest ih =>
    simp only [List.foldl_cons]
    rcases List.mem_cons.mp hp with h1 | h2
    · subst h1
      by_cases hq : p.1 > acc
      · rw [if_pos hq]
        exact scan_foldl_ge_acc rest p.1
      · rw [if_neg hq]
        exact le_trans (by omega) (scan_foldl_ge_acc rest acc)
    · exact ih h2 _

lemma scan_foldl_mem_or_acc (d : Files) (acc : Nat) :
    d.foldl (fun acc p => if p.1 > acc then p.1 else acc) acc = acc ∨
    ∃ p ∈ d, d.foldl (fun acc p => if p.1 > acc then p.1 else acc) acc = p.1 := by
  induction d generalizing acc with
  | nil => left; rfl
  | cons q rest ih =>
    simp only [List.foldl_cons]
    by_cases hq : q.1 > acc
    · rw [if_pos hq]
      rcases ih q.1 with h1 | ⟨p, hp, h2⟩
      · right; exact ⟨q, by simp, h1⟩
      · right; exact ⟨p, List.mem_cons_of_mem _ hp, h2⟩
    · rw [if_neg hq]
      rcases ih acc with h1 | ⟨p, hp, h2⟩
      · left; exact h1
      · right; exact ⟨p, List.mem_cons_of_mem _ hp, h2⟩

/-- Under the store invariantʼs bounds, the directory scan recomputes
exactly the active segment number. -/
lemma scan_foldl_eq_fc {d : Files} {fc : Nat}
    (hle : ∀ p ∈ d, p.1 ≤ fc) (hmem : (alGet d fc).isSome) (hfc : 1 ≤ fc) :
    d.foldl (fun acc p => if p.1 > acc then p.1 else acc) 0 = fc := by
  cases hg : alGet d fc with
  | none => rw [hg] at hmem; simp at hmem
  | some c =>
    have h1 : fc ≤ d.foldl (fun acc p => if p.1 > acc then p.1 else acc) 0 :=
      scan_foldl_ge_mem (alGet_mem hg) 0
    rcases scan_foldl_mem_or_acc d 0 with h2 | ⟨p, hp, h2⟩
    · omega
    · rw [h2]
      exact le_antisymm (hle p hp) (h2 ▸ h1)

/-! ### Good-entry lemmas -/

lemma GoodEntry_mono {d d2 : Files} {k : List Char} {fi : FileIndex}
    (heq : alGet d2 fi.num = alGet d fi.num) (h : GoodEntry d k fi) :
    GoodEntry d2 k fi := by
  obtain ⟨c, hc, h1, v, h2⟩ := h
  exact ⟨c, heq ▸ hc, h1, v, h2⟩

lemma GoodEntry_offset_lt {d : Files} {k c : List Char} {fi : FileIndex}
    (h : GoodEntry d k fi) (hc : alGet d fi.num = some c) :
    fi.offset < c.length := by
  obtain ⟨c2, hc2, h1, v, h2⟩ := h
  rw [hc] at hc2
  injection hc2 with hc2
  subst hc2
  by_contra hge
  have : c.drop fi.offset = [] := List.drop_eq_nil_of_le (by omega)
  rw [this] at h1
  simp [takeLine] at h1

lemma GoodEntry_extend {d d2 : Files} {k c x : List Char} {fi : FileIndex}
    (h : GoodEntry d k fi) (hc : alGet d fi.num = some c)
    (h2 : alGet d2 fi.num = some (c ++ x)) : GoodEntry d2 k fi := by
  have hoff := GoodEntry_offset_lt h hc
  obtain ⟨c2, hc2, h1, v, hv⟩ := h
  rw [hc] at hc2
  injection hc2 with hc2
  subst hc2
  have hdrop : (c ++ x).drop fi.offset = c.drop fi.offset ++ x := by
    rw [List.drop_append_eq_append_drop]
    have : fi.offset - c.length = 0 := by omega
    rw [this]
    simp
  have hline : takeLine ((c ++ x).drop fi.offset) = takeLine (c.drop fi.offset) := by
    rw [hdrop]
    exact takeLine_append_stable h1 x
  exact ⟨c ++ x, h2, by rw [hline]; exact h1, v, by rw [hline]; exact hv⟩

lemma GoodEntry_extendFile {d : Files} {k x : List Char} {fi : FileIndex}
    (n : Nat) (h : GoodEntry d k fi) : GoodEntry (extendFile d n x) k fi := by
  by_cases hn : n = fi.num
  · have hG := h
    obtain ⟨c, hc, h1, v, hv⟩ := h
    apply GoodEntry_extend hG hc
    unfold extendFile
    rw [hn, hc]
    simp only [Option.getD_some]
    exact alGet_alSet_self d fi.num (c ++ x)
  · apply GoodEntry_mono _ h
    unfold extendFile
    exact alGet_alSet_ne d _ (fun hc => hn hc.symm)

lemma readAt_of_GoodEntry {d : Files} {k : List Char} {fi : FileIndex}
    (h : GoodEntry d k fi) : ∃ v, readAt d fi = .ok (.Set k v) := by
  obtain ⟨c, hc, h1, v, hv⟩ := h
  refine ⟨v, ?_⟩
  unfold readAt readLineAt
  rw [hc]
  exact hv

lemma readAt_extendFile_of_GoodEntry {d : Files} {k x : List Char}
    {fi : FileIndex} (n : Nat) (h : GoodEntry d k fi) :
    readAt (extendFile d n x) fi = readAt d fi := by
  obtain ⟨c, hc, h1, v, hv⟩ := h
  by_cases hn : n = fi.num
  · have hoff := GoodEntry_offset_lt ⟨c, hc, h1, v, hv⟩ hc
    have h2 : alGet (extendFile d n x) fi.num = some (c ++ x) := by
      unfold extendFile
      rw [hn, hc]
      simp only [Option.getD_some]
      exact alGet_alSet_self d fi.num (c ++ x)
    unfold readAt readLineAt
    rw [hc, h2]
    dsimp only
    have hdrop : (c ++ x).drop fi.offset = c.drop fi.offset ++ x := by
      rw [List.drop_append_eq_append_drop]
      have : fi.offset - c.length = 0 := by omega
      rw [this]
      simp
    rw [hdrop, takeLine_append_stable h1 x]
  · unfold readAt readLineAt extendFile
    rw [alGet_alSet_ne d _ (fun hc2 => hn hc2.symm)]

/-- The record a healthy entry dereferences to round-trips through the
codec, with clean tokens: reading and re-writing it preserves it. -/
lemma GoodEntry_roundtrip {d : Files} {k v : List Char} {fi : FileIndex}
    (h : GoodEntry d k fi) (hr : readAt d fi = .ok (.Set k v)) :
    '\n' ∉ k ∧ '\n' ∉ v ∧
    deserializeRec (serializeRec (.Set k v)) = .ok (.Set k v) := by
  obtain ⟨c, hc, h1, v2, hv2⟩ := h
  have hline : readAt d fi = deserializeRec (takeLine (c.drop fi.offset)) := by
    unfold readAt readLineAt
    rw [hc]
  rw [hline] at hr
  obtain ⟨p, hp, hnp⟩ := takeLine_getLast_shape h1
  obtain ⟨_, _, hknl, hvnl, _, hrt⟩ := good_set_line_roundtrip hp hnp hr
  exact ⟨hknl, hvnl, hrt⟩

lemma GoodEntry_write_set {d : Files} {k v : List Char} (n : Nat)
    (hds : deserializeRec (serializeRec (.Set k v)) = .ok (.Set k v))
    (hknl : '\n' ∉ k) (hvnl : '\n' ∉ v) :
    GoodEntry (writeRec d n (.Set k v)).2 k (writeRec d n (.Set k v)).1 := by
  have hser : serializeRec (.Set k v) =
      ('s' :: 'e' :: 't' :: ' ' :: (k ++ ' ' :: v)) ++ ['\n'] :=
    serializeRec_set_eq k v
  have hpre : '\n' ∉ 's' :: 'e' :: 't' :: ' ' :: (k ++ ' ' :: v) := by
    simp
    exact ⟨hknl, hvnl⟩
  refine ⟨((alGet d n).getD []) ++ serializeRec (.Set k v), ?_, ?_, v, ?_⟩
  · unfold writeRec extendFile
    exact alGet_alSet_self d n _
  · rw [show (writeRec d n (.Set k v)).1.offset = ((alGet d n).getD []).length from rfl]
    rw [List.drop_left]
    rw [hser, show ('s' :: 'e' :: 't' :: ' ' :: (k ++ ' ' :: v)) ++ ['\n'] =
      ('s' :: 'e' :: 't' :: ' ' :: (k ++ ' ' :: v)) ++ '\n' :: [] from rfl]
    rw [takeLine_append_nl hpre]
    exact List.getLast?_concat _
  · rw [show (writeRec d n (.Set k v)).1.offset = ((alGet d n).getD []).length from rfl]
    rw [List.drop_left]
    rw [hser, show ('s' :: 'e' :: 't' :: ' ' :: (k ++ ' ' :: v)) ++ ['\n'] =
      ('s' :: 'e' :: 't' :: ' ' :: (k ++ ' ' :: v)) ++ '\n' :: [] from rfl]
    rw [takeLine_append_nl hpre]
    rw [← hser]
    exact hds

/-- Reading back the record just written returns it exactly. -/
lemma readAt_write_set (d : Files) (n : Nat) {k v : List Char}
    (hds : deserializeRec (serializeRec (.Set k v)) = .ok (.Set k v))
    (hknl : '\n' ∉ k) (hvnl : '\n' ∉ v) :
    readAt (writeRec d n (.Set k v)).2 (writeRec d n (.Set k v)).1 =
      .ok (.Set k v) := by
  have hser : serializeRec (.Set k v) =
      ('s' :: 'e' :: 't' :: ' ' :: (k ++ ' ' :: v)) ++ ['\n'] :=
    serializeRec_set_eq k v
  have hpre : '\n' ∉ 's' :: 'e' :: 't' :: ' ' :: (k ++ ' ' :: v) := by
    simp
    exact ⟨hknl, hvnl⟩
  have hcc : alGet (writeRec d n (.Set k v)).2 ((writeRec d n (.Set k v)).1.num) =
      some (((alGet d n).getD []) ++ serializeRec (.Set k v)) :=
    alGet_alSet_self d n _
  unfold readAt readLineAt
  rw [hcc]
  dsimp only
  have hoffeq : (writeRec d n (.Set k v)).1.offset =
      ((alGet d n).getD []).length := rfl
  rw [hoffeq, List.drop_left]
  rw [hser, show ('s' :: 'e' :: 't' :: ' ' :: (k ++ ' ' :: v)) ++ ['\n'] =
    ('s' :: 'e' :: 't' :: ' ' :: (k ++ ' ' :: v)) ++ '\n' :: [] from rfl]
  rw [takeLine_append_nl hpre]
  rw [← hser]
  exact hds

/-! ### Parse and replay composition lemmas -/

lemma parseFuel_irrel : ∀ (fuel1 fuel2 : Nat) (c : List Char) (off : Nat),
    c.length ≤ fuel1 → c.length ≤ fuel2 →
    parseFuel fuel1 c off = parseFuel fuel2 c off := by
  intro fuel1
  induction fuel1 with
  | zero =>
    intro fuel2 c off h1 h2
    cases c with
    | nil => cases fuel2 <;> rfl
    | cons x rest => simp at h1
  | succ f1 ih =>
    intro fuel2 c off h1 h2
    cases c with
    | nil => cases fuel2 <;> rfl
    | cons x rest =>
      cases fuel2 with
      | zero => simp at h2
      | succ f2 =>
        simp only [parseFuel]
        have hlen : ((x :: rest).drop (takeLine (x :: rest)).length).length ≤ f1 := by
          have hpos : 0 < (takeLine (x :: rest)).length := by
            simp only [takeLine]
            split <;> simp
          simp only [List.length_drop]
          simp at h1
          simp only [List.length_cons]
          omega
        have hlen2 : ((x :: rest).drop (takeLine (x :: rest)).length).length ≤ f2 := by
          have hpos : 0 < (takeLine (x :: rest)).length := by
            simp only [takeLine]
            split <;> simp
          simp only [List.length_drop]
          simp at h2
          simp only [List.length_cons]
          omega
        rw [ih f2 _ _ hlen hlen2]

lemma parseAllFrom_nil (off : Nat) : parseAllFrom [] off = .ok [] := rfl

lemma parseAllFrom_cons_line {l p : List Char} (hp : l = p ++ ['\n'])
    (hnp : '\n' ∉ p) {r : Record} (hr : deserializeRec l = .ok r)
    (t : List Char) (off : Nat) :
    parseAllFrom (l ++ t) off =
      match parseAllFrom t (off + l.length) with
      | .error e => .error e
      | .ok tail => .ok ((r, off) :: tail) := by
  have htl : takeLine (l ++ t) = l := by
    rw [hp, List.append_assoc, List.singleton_append]
    exact takeLine_append_nl hnp t
  have hlpos : 0 < l.length := by rw [hp]; simp
  obtain ⟨x, rest, hx⟩ : ∃ x rest, l ++ t = x :: rest := by
    cases hlt : l ++ t with
    | nil =>
      exfalso
      have : l = [] := by
        have := congrArg List.length hlt
        simp at this
        exact this.1
      rw [this] at hlpos
      simp at hlpos
    | cons x rest => exact ⟨x, rest, rfl⟩
  have hlen : (l ++ t).length = rest.length + 1 := by rw [hx]; rfl
  unfold parseAllFrom
  rw [hlen]
  conv_lhs => rw [hx]
  simp only [parseFuel]
  rw [← hx, htl, hr]
  have hdrop : (l ++ t).drop l.length = t := List.drop_left l t
  rw [hdrop]
  have hfuel : parseFuel rest.length t (off + l.length) =
      parseFuel t.length t (off + l.length) := by
    apply parseFuel_irrel
    · have := congrArg List.length hx
      simp only [List.length_append, List.length_cons] at this
      omega
    · exact le_refl _
  rw [hfuel]

lemma WfChunks_append {a b : List Char} (ha : WfChunks a) (hb : WfChunks b) :
    WfChunks (a ++ b) := by
  induction ha with
  | nil => exact hb
  | cons l rest hl hrest ih =>
    rw [List.append_assoc]
    exact WfChunks.cons l (rest ++ b) hl ih

lemma WfChunks_singleton {l : List Char} (hl : goodLine l) : WfChunks l := by
  have := WfChunks.cons l [] hl WfChunks.nil
  rwa [List.append_nil] at this

lemma parseAllFrom_wf_append {a : List Char} (hw : WfChunks a) :
    ∀ off b, ∃ ra, parseAllFrom a off = .ok ra ∧
      parseAllFrom (a ++ b) off =
        (parseAllFrom b (off + a.length)).map (fun rb => ra ++ rb) := by
  induction hw with
  | nil =>
    intro off b
    refine ⟨[], parseAllFrom_nil off, ?_⟩
    simp only [List.nil_append, List.length_nil, Nat.add_zero]
    cases hb : parseAllFrom b off <;> simp [Except.map]
  | cons l rest hgl hwrest ih =>
    intro off b
    obtain ⟨⟨p, hp, hnp⟩, r, hr⟩ := hgl
    obtain ⟨rr, hrr1, _⟩ := ih (off + l.length) []
    refine ⟨(r, off) :: rr, ?_, ?_⟩
    · rw [parseAllFrom_cons_line hp hnp hr rest off, hrr1]
    · rw [List.append_assoc]
      rw [parseAllFrom_cons_line hp hnp hr (rest ++ b) off]
      obtain ⟨rr2, hrr2, heq2⟩ := ih (off + l.length) b
      rw [hrr1] at hrr2
      injection hrr2 with hrr2
      subst hrr2
      rw [heq2]
      have hlen : off + (l ++ rest).length = off + l.length + rest.length := by
        simp [List.length_append]
        omega
      rw [hlen]
      cases hb : parseAllFrom b (off + l.length + rest.length) <;>
        simp [Except.map]

lemma replayRecords_append (num : Nat) (idx : Idx) (unc : Nat)
    (r1 r2 : List (Record × Nat)) :
    replayRecords num idx unc (r1 ++ r2) =
      replayRecords num (replayRecords num idx unc r1).1
        (replayRecords num idx unc r1).2 r2 := by
  induction r1 generalizing idx unc with
  | nil => rfl
  | cons q rest ih =>
    obtain ⟨r, off⟩ := q
    cases r with
    | Set k v =>
      simp only [List.cons_append, replayRecords]
      exact ih _ _
    | Remove k =>
      simp only [List.cons_append, replayRecords]
      exact ih _ _

lemma replayUpTo_congr {d1 d2 : Files} (n : Nat)
    (h : ∀ m, 1 ≤ m → m ≤ n → alGet d1 m = alGet d2 m) :
    replayUpTo d1 n = replayUpTo d2 n := by
  induction n with
  | zero => rfl
  | succ n ih =>
    simp only [replayUpTo]
    rw [ih (fun m h1 h2 => h m h1 (by omega)), h (n + 1) (by omega) (by omega)]

/-! ### Compaction-loop lemmas -/

lemma readAt_congr {d d2 : Files} {fi : FileIndex}
    (h : alGet d2 fi.num = alGet d fi.num) : readAt d2 fi = readAt d fi := by
  unfold readAt readLineAt
  rw [h]

lemma readAt_extend_eq {d d2 : Files} {c x : List Char} {k : List Char}
    {fi : FileIndex} (h : GoodEntry d k fi) (hc : alGet d fi.num = some c)
    (h2 : alGet d2 fi.num = some (c ++ x)) : readAt d2 fi = readAt d fi := by
  have hoff := GoodEntry_offset_lt h hc
  obtain ⟨c2, hc2, h1, v, hv⟩ := h
  rw [hc] at hc2
  injection hc2 with hc2
  subst hc2
  unfold readAt readLineAt
  rw [hc, h2]
  dsimp only
  have hdrop : (c ++ x).drop fi.offset = c.drop fi.offset ++ x := by
    rw [List.drop_append_eq_append_drop]
    have : fi.offset - c.length = 0 := by omega
    rw [this]
    simp
  rw [hdrop, takeLine_append_stable h1 x]

lemma alGet_append {α β : Type} [DecidableEq α] (l1 l2 : List (α × β)) (a : α) :
    alGet (l1 ++ l2) a =
      match alGet l1 a with
      | some b => some b
      | none => alGet l2 a := by
  induction l1 with
  | nil => simp [alGet]
  | cons q rest ih =>
    obtain ⟨x, y⟩ := q
    simp only [List.cons_append, alGet, List.append_eq]
    by_cases hx : x = a
    · rw [if_pos hx, if_pos hx]
    · rw [if_neg hx, if_neg hx, ih]

lemma compactLoop_files (n : Nat) (l : Idx) (files : Files) :
    (∀ m, m ≠ n → alGet (compactLoop n l files).2.2 m = alGet files m) ∧
    (∀ base, alGet files n = some base →
      ∃ x, alGet (compactLoop n l files).2.2 n = some (base ++ x)) := by
  induction l generalizing files with
  | nil =>
    exact ⟨fun m _ => rfl, fun base hb => ⟨[], by simpa using hb⟩⟩
  | cons q rest ih =>
    obtain ⟨k, fi⟩ := q
    simp only [compactLoop]
    cases hr : readAt files fi with
    | error e =>
      exact ⟨fun m _ => rfl, fun base hb => ⟨[], by simpa using hb⟩⟩
    | ok r =>
      simp only
      set files1 := (writeRec files n r).2 with hf1
      have h1 : ∀ m, m ≠ n → alGet files1 m = alGet files m := by
        intro m hm
        rw [hf1]
        unfold writeRec extendFile
        exact alGet_alSet_ne files _ hm
      have h2 : ∀ base, alGet files n = some base →
          alGet files1 n = some (base ++ serializeRec r) := by
        intro base hb
        rw [hf1]
        unfold writeRec extendFile
        rw [hb]
        simp only [Option.getD_some]
        exact alGet_alSet_self files n _
      obtain ⟨ih1, ih2⟩ := ih files1
      constructor
      · intro m hm
        rw [ih1 m hm, h1 m hm]
      · intro base hb
        obtain ⟨x, hx⟩ := ih2 (base ++ serializeRec r) (h2 base hb)
        exact ⟨serializeRec r ++ x, by rw [hx, List.append_assoc]⟩

lemma compactLoop_good (n : Nat) (l : Idx) (files : Files)
    (hg : ∀ k fi, (k, fi) ∈ l → GoodEntry files k fi) :
    (compactLoop n l files).1 = .ok () ∧
    ((compactLoop n l files).2.1.map Prod.fst = l.map Prod.fst) ∧
    ∀ k fi, alGet l k = some fi →
      ∃ fi2 v, alGet (compactLoop n l files).2.1 k = some fi2 ∧ fi2.num = n ∧
        readAt (compactLoop n l files).2.2 fi2 = .ok (.Set k v) ∧
        GoodEntry (compactLoop n l files).2.2 k fi2 ∧
        readAt files fi = .ok (.Set k v) := by
  induction l generalizing files with
  | nil =>
    refine ⟨rfl, rfl, ?_⟩
    intro k fi h
    simp [alGet] at h
  | cons q rest ih =>
    obtain ⟨k0, fi0⟩ := q
    have hg0 : GoodEntry files k0 fi0 := hg k0 fi0 (by simp)
    obtain ⟨v0, hr0⟩ := readAt_of_GoodEntry hg0
    simp only [compactLoop, hr0]
    set files1 := (writeRec files n (.Set k0 v0)).2 with hf1
    set fi2h := (writeRec files n (.Set k0 v0)).1 with hfi2
    obtain ⟨hknl, hvnl, hrt⟩ := GoodEntry_roundtrip hg0 hr0
    have hgood1 : GoodEntry files1 k0 fi2h := GoodEntry_write_set n hrt hknl hvnl
    have hread1 : readAt files1 fi2h = .ok (.Set k0 v0) :=
      readAt_write_set files n hrt hknl hvnl
    have hgrest : ∀ k fi, (k, fi) ∈ rest → GoodEntry files1 k fi := by
      intro k fi hmem
      exact GoodEntry_extendFile n (hg k fi (List.mem_cons_of_mem _ hmem))
    obtain ⟨ihok, ihkeys, ihcorr⟩ := ih files1 hgrest
    obtain ⟨ihf1, ihf2⟩ := compactLoop_files n rest files1
    have hbase1 : ∃ c1, alGet files1 n = some c1 :=
      ⟨_, alGet_alSet_self files n _⟩
    obtain ⟨c1, hc1⟩ := hbase1
    obtain ⟨xr, hxr⟩ := ihf2 c1 hc1
    refine ⟨ihok, by simp only [List.map_cons, ihkeys], ?_⟩
    intro k fi hget
    simp only [alGet] at hget
    by_cases hk : k0 = k
    · rw [if_pos hk] at hget
      injection hget with hget
      subst hget
      subst hk
      refine ⟨fi2h, v0, ?_, rfl, ?_, ?_, hr0⟩
      · simp [alGet]
      · rw [readAt_extend_eq hgood1 hc1 hxr]
        exact hread1
      · exact GoodEntry_extend hgood1 hc1 hxr
    · rw [if_neg hk] at hget
      obtain ⟨fi2, v, hcg, hnum, hrd, hge, hro⟩ := ihcorr k fi hget
      refine ⟨fi2, v, ?_, hnum, hrd, hge, ?_⟩
      · simp only [alGet, if_neg hk]
        exact hcg
      · rw [← hro, hf1]
        exact (readAt_extendFile_of_GoodEntry n
          (hg k fi (List.mem_cons_of_mem _ (alGet_mem hget)))).symm

/-- Replaying the segment written by the compaction loop reproduces the
rewritten index exactly, with no stale records. -/
lemma compactLoop_replay (n : Nat) (l : Idx) (files : Files) (base : List Char)
    (hnd : (l.map Prod.fst).Nodup)
    (hg : ∀ k fi, (k, fi) ∈ l → GoodEntry files k fi)
    (hb : alGet files n = some base) :
    ∃ x recs, alGet (compactLoop n l files).2.2 n = some (base ++ x) ∧
      WfChunks x ∧ parseAllFrom x base.length = .ok recs ∧
      ∀ idx0 unc, (∀ k, k ∈ l.map Prod.fst → alGet idx0 k = none) →
        replayRecords n idx0 unc recs =
          (idx0 ++ (compactLoop n l files).2.1, unc) := by
  induction l generalizing files base with
  | nil =>
    refine ⟨[], [], by simpa using hb, WfChunks.nil, parseAllFrom_nil _, ?_⟩
    intro idx0 unc _
    simp [replayRecords, compactLoop]
  | cons q rest ih =>
    obtain ⟨k0, fi0⟩ := q
    have hg0 : GoodEntry files k0 fi0 := hg k0 fi0 (by simp)
    obtain ⟨v0, hr0⟩ := readAt_of_GoodEntry hg0
    simp only [compactLoop, hr0]
    set files1 := (writeRec files n (.Set k0 v0)).2 with hf1
    set fi2h := (writeRec files n (.Set k0 v0)).1 with hfi2
    obtain ⟨hknl, hvnl, hrt⟩ := GoodEntry_roundtrip hg0 hr0
    have hfieq : fi2h = ⟨n, base.length⟩ := by
      rw [hfi2]
      unfold writeRec
      rw [hb]
      rfl
    have hb1 : alGet files1 n = some (base ++ serializeRec (.Set k0 v0)) := by
      rw [hf1]
      unfold writeRec extendFile
      rw [hb]
      simp only [Option.getD_some]
      exact alGet_alSet_self files n _
    have hgrest : ∀ k fi, (k, fi) ∈ rest → GoodEntry files1 k fi := by
      intro k fi hmem
      exact GoodEntry_extendFile n (hg k fi (List.mem_cons_of_mem _ hmem))
    have hndr : (rest.map Prod.fst).Nodup := by
      simp only [List.map_cons, List.nodup_cons] at hnd
      exact hnd.2
    have hk0nr : k0 ∉ rest.map Prod.fst := by
      simp only [List.map_cons, List.nodup_cons] at hnd
      exact hnd.1
    obtain ⟨x2, recs2, hx2, hwf2, hp2, hrep2⟩ :=
      ih files1 (base ++ serializeRec (.Set k0 v0)) hndr hgrest hb1
    refine ⟨serializeRec (.Set k0 v0) ++ x2,
      (Record.Set k0 v0, base.length) :: recs2, ?_, ?_, ?_, ?_⟩
    · rw [hx2, List.append_assoc]
    · exact WfChunks.cons _ _ (goodLine_ser_set hknl hvnl hrt) hwf2
    · have hser := serializeRec_set_eq k0 v0
      rw [parseAllFrom_cons_line hser (by simp; exact ⟨hknl, hvnl⟩) hrt x2
        base.length]
      rw [List.length_append] at hp2
      rw [hp2]
    · intro idx0 unc hdis
      simp only [replayRecords]
      have hk0mem : k0 ∈ List.map Prod.fst ((k0, fi0) :: rest) := by
        rw [List.map_cons]
        exact List.mem_cons_self _ _
      rw [hdis k0 hk0mem]
      simp only [Option.isSome_none, Bool.false_eq_true, if_false]
      rw [alSet_append_of_absent _ (hdis k0 hk0mem)]
      have hdis2 : ∀ k ∈ rest.map Prod.fst,
          alGet (idx0 ++ [(k0, (⟨n, base.length⟩ : FileIndex))]) k = none := by
        intro k hk
        rw [alGet_append]
        rw [hdis k (by simp only [List.map_cons, List.mem_cons]; right; exact hk)]
        simp only [alGet]
        rw [if_neg (fun hc => hk0nr (by rw [hc]; exact hk))]
      rw [hrep2 _ unc hdis2]
      rw [List.append_assoc, List.singleton_append, hfieq]

/-! ### Engine-level support lemmas -/

lemma alGet_of_mem_nodup {α β : Type} [DecidableEq α] {l : List (α × β)}
    {a : α} {b : β} (hnd : (l.map Prod.fst).Nodup) (h : (a, b) ∈ l) :
    alGet l a = some b := by
  induction l with
  | nil => simp at h
  | cons q rest ih =>
    obtain ⟨x, y⟩ := q
    simp only [List.map_cons, List.nodup_cons] at hnd
    rcases List.mem_cons.mp h with h1 | h2
    · injection h1 with h1a h1b
      subst h1a; subst h1b
      simp [alGet]
    · simp only [alGet]
      by_cases hx : x = a
      · subst hx
        exfalso
        exact hnd.1 (List.mem_map.mpr ⟨(x, b), h2, rfl⟩)
      · rw [if_neg hx]
        exact ih hnd.2 h2

lemma alGet_newFile_of_some {st : KvStore} {m : Nat} {c : List Char}
    (h : alGet st.files m = some c) : alGet (newFile st).files m = some c := by
  unfold newFile
  simp only
  by_cases hs : (alGet st.files (st.file_count + 1)).isSome
  · rw [if_pos hs]; exact h
  · rw [if_neg hs]
    by_cases hm : m = st.file_count + 1
    · subst hm
      rw [h] at hs
      simp at hs
    · rw [alGet_alSet_ne _ _ hm]
      exact h

lemma GoodEntry_newFile {st : KvStore} {k : List Char} {fi : FileIndex}
    (h : GoodEntry st.files k fi) : GoodEntry (newFile st).files k fi := by
  obtain ⟨c, hc, h1, v, hv⟩ := h
  exact ⟨c, alGet_newFile_of_some hc, h1, v, hv⟩

lemma readAt_newFile_of_GoodEntry {st : KvStore} {k : List Char}
    {fi : FileIndex} (h : GoodEntry st.files k fi) :
    readAt (newFile st).files fi = readAt st.files fi := by
  obtain ⟨c, hc, _, _, _⟩ := h
  exact readAt_congr (by rw [alGet_newFile_of_some hc, hc])

lemma checkIfNewFile_cases (st : KvStore) :
    checkIfNewFile st = st ∨ checkIfNewFile st = newFile st := by
  unfold checkIfNewFile
  split
  · right; rfl
  · left; rfl

lemma checkIfNewFile_idx (st : KvStore) : (checkIfNewFile st).idx = st.idx := by
  rcases checkIfNewFile_cases st with h | h <;> rw [h] <;> rfl

lemma checkIfNewFile_unc (st : KvStore) :
    (checkIfNewFile st).uncompacted = st.uncompacted := by
  rcases checkIfNewFile_cases st with h | h <;> rw [h] <;> rfl

lemma checkIfNewFile_fc (st : KvStore) :
    (checkIfNewFile st).file_count = st.file_count ∨
    (checkIfNewFile st).file_count = st.file_count + 1 := by
  rcases checkIfNewFile_cases st with h | h <;> rw [h]
  · left; rfl
  · right; rfl

lemma alGet_checkIfNewFile_of_some {st : KvStore} {m : Nat} {c : List Char}
    (h : alGet st.files m = some c) :
    alGet (checkIfNewFile st).files m = some c := by
  rcases checkIfNewFile_cases st with h2 | h2 <;> rw [h2]
  · exact h
  · exact alGet_newFile_of_some h

lemma GoodEntry_checkIfNewFile {st : KvStore} {k : List Char} {fi : FileIndex}
    (h : GoodEntry st.files k fi) : GoodEntry (checkIfNewFile st).files k fi := by
  rcases checkIfNewFile_cases st with h2 | h2 <;> rw [h2]
  · exact h
  · exact GoodEntry_newFile h

lemma replayUpTo_none {d : Files} (n : Nat)
    (h : ∀ m, 1 ≤ m → m ≤ n → alGet d m = none) :
    replayUpTo d n = .ok ([], 0) := by
  induction n with
  | zero => rfl
  | succ n ih =>
    simp only [replayUpTo]
    rw [ih (fun m h1 h2 => h m h1 (by omega))]
    rw [h (n + 1) (by omega) (by omega)]

/-- Appending one well-formed record line to the active (highest) segment
extends the replay result by exactly that record. -/
lemma replayUpTo_last_append {d : Files} {fc : Nat} (hfc : 1 ≤ fc)
    {c : List Char} (hc : alGet d fc = some c) (hwfc : WfChunks c)
    {l p : List Char} (hp : l = p ++ ['\n']) (hnp : '\n' ∉ p)
    {r : Record} (hr : deserializeRec l = .ok r)
    {idx : Idx} {unc : Nat} (hrep : replayUpTo d fc = .ok (idx, unc)) :
    replayUpTo (extendFile d fc l) fc =
      .ok (replayRecords fc idx unc [(r, c.length)]) := by
  obtain ⟨m, rfl⟩ : ∃ m, fc = m + 1 := ⟨fc - 1, by omega⟩
  have hcongr : replayUpTo (extendFile d (m + 1) l) m = replayUpTo d m := by
    apply replayUpTo_congr
    intro m2 h1 h2
    unfold extendFile
    exact alGet_alSet_ne _ _ (by omega)
  simp only [replayUpTo] at hrep ⊢
  rw [hcongr]
  cases hm : replayUpTo d m with
  | error e => rw [hm] at hrep; simp at hrep
  | ok q =>
    obtain ⟨i1, u1⟩ := q
    rw [hm] at hrep
    dsimp only at hrep
    rw [hc] at hrep
    dsimp only at hrep
    have hd2 : alGet (extendFile d (m + 1) l) (m + 1) = some (c ++ l) := by
      unfold extendFile
      rw [hc]
      simp only [Option.getD_some]
      exact alGet_alSet_self d _ _
    dsimp only
    rw [hd2]
    dsimp only
    cases hparse : parseAllFrom c 0 with
    | error e => rw [hparse] at hrep; simp at hrep
    | ok recs =>
      rw [hparse] at hrep
      dsimp only at hrep
      obtain ⟨ra, hra, happ⟩ := parseAllFrom_wf_append hwfc 0 (l ++ [])
      rw [List.append_nil] at happ
      rw [hparse] at hra
      injection hra with hra
      subst hra
      have hsingle : parseAllFrom l (0 + c.length) = .ok [(r, c.length)] := by
        have := parseAllFrom_cons_line hp hnp hr [] (0 + c.length)
        rw [List.append_nil] at this
        rw [this, parseAllFrom_nil]
        simp
      have hq : replayRecords (m + 1) i1 u1 recs = (idx, unc) := by
        injection hrep with hrep
      rw [happ, hsingle]
      simp only [Except.map]
      rw [replayRecords_append, hq]

lemma compactLoop_files_nodup (n : Nat) (l : Idx) (files : Files)
    (h : (files.map Prod.fst).Nodup) :
    ((compactLoop n l files).2.2.map Prod.fst).Nodup := by
  induction l generalizing files with
  | nil => exact h
  | cons q rest ih =>
    obtain ⟨k, fi⟩ := q
    simp only [compactLoop]
    cases hr : readAt files fi with
    | error e => exact h
    | ok r =>
      simp only
      exact ih _ (alSet_nodup_keys _ h)

lemma compactLoop_files_mem (n : Nat) (l : Idx) (files : Files)
    {p : Nat × List Char} (h : p ∈ (compactLoop n l files).2.2) :
    p.1 = n ∨ p ∈ files := by
  induction l generalizing files with
  | nil => right; exact h
  | cons q rest ih =>
    obtain ⟨k, fi⟩ := q
    simp only [compactLoop] at h
    cases hr : readAt files fi with
    | error e => rw [hr] at h; right; exact h
    | ok r =>
      rw [hr] at h
      simp only at h
      rcases ih _ h with h1 | h2
      · left; exact h1
      · rcases mem_alSet h2 with h3 | h4
        · left; rw [h3]
        · right; exact h4

lemma delUpTo_nodup {d : Files} (old : Nat)
    (h : (d.map Prod.fst).Nodup) :
    ((delUpTo d old).map Prod.fst).Nodup := by
  induction old with
  | zero => exact h
  | succ n ih =>
    rw [delUpTo_succ]
    exact alDel_nodup_keys _ ih

/-! ### Engine operation specifications -/

lemma getOp_none {st : KvStore} {k : List Char} (h : alGet st.idx k = none) :
    getOp st k = .ok none := by
  unfold getOp getS
  rw [h]

lemma getOp_some_set {st : KvStore} {k k2 v : List Char} {fi : FileIndex}
    (hi : alGet st.idx k = some fi)
    (hr : readAt st.files fi = .ok (.Set k2 v)) :
    getOp st k = .ok (some v) := by
  unfold getOp getS
  rw [hi]
  dsimp only
  rw [hr]

lemma getOp_congr {st1 st2 : KvStore} (hidx : st1.idx = st2.idx)
    (hfiles : st1.files = st2.files) (k : List Char) :
    getOp st1 k = getOp st2 k := by
  unfold getOp getS
  rw [hidx, hfiles]
  cases alGet st2.idx k with
  | none => rfl
  | some fi =>
    dsimp only
    cases readAt st2.files fi with
    | error e => rfl
    | ok r =>
      cases r with
      | Set a v => rfl
      | Remove a => rfl

lemma getOp_unc (st : KvStore) (u : Nat) (k : List Char) :
    getOp { st with uncompacted := u } k = getOp st k :=
  @getOp_congr { st with uncompacted := u } st rfl rfl k

lemma compactOp_eq (st : KvStore) :
    compactOp st =
      (match (compactLoop (st.file_count + 1) st.idx (newFile st).files).1 with
       | .error e => (.error e,
          { file_count := st.file_count + 1,
            files := (compactLoop (st.file_count + 1) st.idx
              (newFile st).files).2.2,
            idx := (compactLoop (st.file_count + 1) st.idx
              (newFile st).files).2.1,
            uncompacted := 0 })
       | .ok _ => (.ok (),
          { file_count := st.file_count + 1,
            files := delUpTo (compactLoop (st.file_count + 1) st.idx
              (newFile st).files).2.2 st.file_count,
            idx := (compactLoop (st.file_count + 1) st.idx
              (newFile st).files).2.1,
            uncompacted := 0 })) := rfl

lemma compactOp_spec {st : KvStore} (h : CoreInv st) :
    (compactOp st).1 = .ok () ∧
    CoreInv (compactOp st).2 ∧
    (compactOp st).2.file_count = st.file_count + 1 ∧
    (compactOp st).2.uncompacted = 0 ∧
    ((compactOp st).2.idx.map Prod.fst = st.idx.map Prod.fst) ∧
    (∀ k fi2, alGet (compactOp st).2.idx k = some fi2 →
      fi2.num = st.file_count + 1) ∧
    (∀ k, getOp (compactOp st).2 k = getOp st k) ∧
    (∀ n2, 1 ≤ n2 → n2 ≤ st.file_count →
      alGet (compactOp st).2.files n2 = none) := by
  obtain ⟨hnd, hgood⟩ := h
  have hg2 : ∀ k fi, (k, fi) ∈ st.idx → GoodEntry (newFile st).files k fi := by
    intro k fi hm
    exact GoodEntry_newFile (hgood k fi (alGet_of_mem_nodup hnd hm))
  obtain ⟨hok, hkeys, hcorr⟩ :=
    compactLoop_good (st.file_count + 1) st.idx (newFile st).files hg2
  set q := compactLoop (st.file_count + 1) st.idx (newFile st).files with hqdef
  set stC : KvStore :=
    { file_count := st.file_count + 1,
      files := delUpTo q.2.2 st.file_count,
      idx := q.2.1,
      uncompacted := 0 } with hstC
  have hco : compactOp st = (.ok (), stC) := by
    rw [compactOp_eq st, ← hqdef, hok]
  rw [hco]
  have hdel_hi : ∀ m, m = st.file_count + 1 →
      alGet stC.files m = alGet q.2.2 m := by
    intro m hm
    rw [hstC]
    dsimp only
    rw [alGet_delUpTo, if_neg (by omega)]
  have hmem_none : ∀ k : List Char, alGet st.idx k = none →
      alGet stC.idx k = none := by
    intro k hi
    apply alGet_eq_none_of_not_mem
    rw [hstC]
    dsimp only
    rw [hkeys]
    intro hm
    have := alGet_isSome_of_mem_keys hm
    rw [hi] at this
    simp at this
  refine ⟨rfl, ⟨?_, ?_⟩, rfl, rfl, hkeys, ?_, ?_, ?_⟩
  · show (q.2.1.map Prod.fst).Nodup
    rw [hkeys]
    exact hnd
  · intro k fi2 hget
    have hget2 : alGet q.2.1 k = some fi2 := hget
    cases hi : alGet st.idx k with
    | none =>
      rw [hmem_none k hi] at hget
      simp at hget
    | some fi =>
      obtain ⟨fi2b, v, hcg, hnum, hrd, hge, hro⟩ := hcorr k fi hi
      rw [hget2] at hcg
      injection hcg with hcg
      subst hcg
      exact GoodEntry_mono (hdel_hi fi2.num hnum) hge
  · intro k fi2 hget
    have hget2 : alGet q.2.1 k = some fi2 := hget
    cases hi : alGet st.idx k with
    | none =>
      rw [hmem_none k hi] at hget
      simp at hget
    | some fi =>
      obtain ⟨fi2b, v, hcg, hnum, hrd, hge, hro⟩ := hcorr k fi hi
      rw [hget2] at hcg
      injection hcg with hcg
      subst hcg
      exact hnum
  · intro k
    cases hi : alGet st.idx k with
    | none =>
      rw [getOp_none (hmem_none k hi), getOp_none hi]
    | some fi =>
      obtain ⟨fi2b, v, hcg, hnum, hrd, hge, hro⟩ := hcorr k fi hi
      have hL : getOp stC k = .ok (some v) := by
        apply @getOp_some_set stC _ _ _ fi2b hcg
        show readAt stC.files fi2b = .ok (.Set k v)
        rw [readAt_congr (hdel_hi fi2b.num hnum)]
        exact hrd
      have hR : getOp st k = .ok (some v) := by
        apply getOp_some_set hi
        rw [← hro]
        exact (readAt_newFile_of_GoodEntry (hgood k fi hi)).symm
      rw [hL, hR]
  · intro n2 h1 h2
    show alGet (delUpTo q.2.2 st.file_count) n2 = none
    rw [alGet_delUpTo, if_pos (by omega)]

lemma recordUncompact_spec {st : KvStore} (h : CoreInv st) :
    (recordUncompact st).1 = .ok () ∧ CoreInv (recordUncompact st).2 ∧
    ∀ k, getOp (recordUncompact st).2 k = getOp st k := by
  unfold recordUncompact
  dsimp only
  split
  · have h2 : CoreInv { st with uncompacted := st.uncompacted + 1 } := h
    obtain ⟨a, b, _, _, _, _, g, _⟩ := compactOp_spec h2
    exact ⟨a, b, fun k => (g k).trans (getOp_unc st _ k)⟩
  · exact ⟨rfl, h, fun k => getOp_unc st _ k⟩

lemma setOp_spec {st : KvStore} {k v : List Char} (h : CoreInv st)
    (hk : cleanStr k) (hv : cleanStr v) :
    (setOp st k v).1 = .ok () ∧ CoreInv (setOp st k v).2 ∧
    getOp (setOp st k v).2 k = .ok (some v) := by
  obtain ⟨hnd, hgood⟩ := h
  set st1 := checkIfNewFile st with hst1
  have hidx1 : st1.idx = st.idx := checkIfNewFile_idx st
  have hgood1 : ∀ k2 fi, alGet st1.idx k2 = some fi →
      GoodEntry st1.files k2 fi := by
    intro k2 fi hi
    rw [hidx1] at hi
    exact GoodEntry_checkIfNewFile (hgood k2 fi hi)
  have hds := deserializeRec_serializeRec_set_clean hk hv
  have hknl : '\n' ∉ k := hk.2.2.1
  have hvnl : '\n' ∉ v := hv.2.2.1
  set p := writeRec st1.files st1.file_count (.Set k v) with hp
  have hfresh : GoodEntry p.2 k p.1 :=
    GoodEntry_write_set _ hds hknl hvnl
  have hreadf : readAt p.2 p.1 = .ok (.Set k v) :=
    readAt_write_set _ _ hds hknl hvnl
  have holdG : ∀ k2 fi, alGet st.idx k2 = some fi → GoodEntry p.2 k2 fi := by
    intro k2 fi hi
    rw [hp]
    apply GoodEntry_extendFile
    apply hgood1
    rw [hidx1]
    exact hi
  have hA : ∀ u : Nat,
      CoreInv { file_count := st1.file_count, files := p.2,
                idx := alSet st1.idx k p.1, uncompacted := u } ∧
      getOp { file_count := st1.file_count, files := p.2,
              idx := alSet st1.idx k p.1, uncompacted := u } k =
        .ok (some v) := by
    intro u
    constructor
    · constructor
      · show ((alSet st1.idx k p.1).map Prod.fst).Nodup
        rw [hidx1]
        exact alSet_nodup_keys _ hnd
      · intro k2 fi hi
        have hi2 : alGet (alSet st1.idx k p.1) k2 = some fi := hi
        by_cases hk2 : k2 = k
        · subst hk2
          rw [alGet_alSet_self] at hi2
          injection hi2 with hi2
          subst hi2
          exact hfresh
        · rw [alGet_alSet_ne _ _ hk2, hidx1] at hi2
          exact holdG k2 fi hi2
    · apply @getOp_some_set _ _ _ _ p.1
      · exact alGet_alSet_self _ _ _
      · exact hreadf
  unfold setOp
  dsimp only
  rw [← hst1, ← hp]
  cases hc : alGet st1.idx k with
  | none =>
    exact ⟨rfl, (hA st1.uncompacted).1, (hA st1.uncompacted).2⟩
  | some fi0 =>
    obtain ⟨a, b, g⟩ := @recordUncompact_spec
      { file_count := st1.file_count, files := p.2,
        idx := alSet st1.idx k p.1,
        uncompacted := st1.uncompacted + 1 }
      (hA (st1.uncompacted + 1)).1
    exact ⟨a, b, (g k).trans (hA (st1.uncompacted + 1)).2⟩

lemma removeOp_absent {st : KvStore} {k : List Char}
    (h : alGet st.idx k = none) :
    removeOp st k = (.error (.NonExistentKey k), st) := by
  unfold removeOp
  rw [h]

lemma removeOp_spec {st : KvStore} {k : List Char} (h : CoreInv st)
    (hsome : (alGet st.idx k).isSome) :
    (removeOp st k).1 = .ok () ∧ CoreInv (removeOp st k).2 := by
  obtain ⟨hnd, hgood⟩ := h
  have hInvDel : CoreInv { st with idx := alDel st.idx k } := by
    constructor
    · exact alDel_nodup_keys _ hnd
    · intro k2 fi hi
      have hi2 : alGet (alDel st.idx k) k2 = some fi := hi
      by_cases hk2 : k2 = k
      · subst hk2
        rw [alGet_alDel_self] at hi2
        simp at hi2
      · rw [alGet_alDel_ne _ hk2] at hi2
        exact hgood k2 fi hi2
  set stD : KvStore := { st with idx := alDel st.idx k } with hstD
  set st1 := checkIfNewFile stD with hst1
  have hidx1 : st1.idx = stD.idx := checkIfNewFile_idx stD
  have hgood1 : ∀ k2 fi, alGet st1.idx k2 = some fi →
      GoodEntry st1.files k2 fi := by
    intro k2 fi hi
    rw [hidx1] at hi
    exact GoodEntry_checkIfNewFile (hInvDel.2 k2 fi hi)
  set p := writeRec st1.files st1.file_count (.Remove k) with hp
  have hInv2 : CoreInv { file_count := st1.file_count, files := p.2,
                         idx := st1.idx, uncompacted := st1.uncompacted } := by
    constructor
    · show ((st1.idx).map Prod.fst).Nodup
      rw [hidx1]
      exact alDel_nodup_keys _ hnd
    · intro k2 fi hi
      have hi2 : alGet st1.idx k2 = some fi := hi
      rw [hp]
      exact GoodEntry_extendFile _ (hgood1 k2 fi hi2)
  unfold removeOp
  cases hc : alGet st.idx k with
  | none => rw [hc] at hsome; simp at hsome
  | some fi0 =>
    dsimp only
    rw [← hstD, ← hst1, ← hp]
    obtain ⟨a, b, _⟩ := @recordUncompact_spec
      { file_count := st1.file_count, files := p.2,
        idx := st1.idx, uncompacted := st1.uncompacted } hInv2
    exact ⟨a, b⟩

/-! ### Replay establishes the invariant -/

/-- Every record parsed out of a well-formed file points back at a
newline-terminated line that decodes to it. -/
lemma parse_chunks_good {c : List Char} (hw : WfChunks c) :
    ∀ off recs, parseAllFrom c off = .ok recs →
      ∀ r o, (r, o) ∈ recs → off ≤ o ∧
        (takeLine (c.drop (o - off))).getLast? = some '\n' ∧
        deserializeRec (takeLine (c.drop (o - off))) = .ok r := by
  induction hw with
  | nil =>
    intro off recs hp r o hm
    rw [parseAllFrom_nil] at hp
    injection hp with hp
    subst hp
    simp at hm
  | cons l rest hgl hwrest ih =>
    intro off recs hp r o hm
    obtain ⟨⟨p, hpp, hnp⟩, r0, hr0⟩ := hgl
    rw [parseAllFrom_cons_line hpp hnp hr0 rest off] at hp
    cases hrest : parseAllFrom rest (off + l.length) with
    | error e => rw [hrest] at hp; simp at hp
    | ok recs2 =>
      rw [hrest] at hp
      dsimp only at hp
      injection hp with hp
      subst hp
      rcases List.mem_cons.mp hm with h1 | h2
      · injection h1 with h1a h1b
        subst h1a; subst h1b
        refine ⟨le_refl _, ?_, ?_⟩
        · rw [Nat.sub_self, List.drop_zero, hpp, List.append_assoc,
            List.singleton_append, takeLine_append_nl hnp]
          exact List.getLast?_concat p
        · rw [Nat.sub_self, List.drop_zero, hpp, List.append_assoc,
            List.singleton_append, takeLine_append_nl hnp, ← hpp]
          exact hr0
      · obtain ⟨ho1, ho2, ho3⟩ := ih (off + l.length) recs2 hrest r o h2
        have hdrop : (l ++ rest).drop (o - off) = rest.drop (o - (off + l.length)) := by
          rw [List.drop_append_eq_append_drop]
          have h4 : l.drop (o - off) = [] := List.drop_eq_nil_of_le (by omega)
          rw [h4, List.nil_append]
          congr 1
          omega
        rw [hdrop]
        exact ⟨by omega, ho2, ho3⟩

/-- Replaying a list of records whose offsets address good `Set` lines of
file `num` preserves index health. -/
lemma replayRecords_good {d : Files} {num : Nat} {c : List Char}
    (hc : alGet d num = some c)
    {recs : List (Record × Nat)}
    (hrecs : ∀ r o, (r, o) ∈ recs →
      (takeLine (c.drop o)).getLast? = some '\n' ∧
      deserializeRec (takeLine (c.drop o)) = .ok r) :
    ∀ idx unc, ((idx.map Prod.fst).Nodup ∧
        (∀ k fi, alGet idx k = some fi → GoodEntry d k fi)) →
      (((replayRecords num idx unc recs).1.map Prod.fst).Nodup ∧
       (∀ k fi, alGet (replayRecords num idx unc recs).1 k = some fi →
         GoodEntry d k fi)) := by
  induction recs with
  | nil => intro idx unc h; exact h
  | cons q rest ih =>
    obtain ⟨r, o⟩ := q
    intro idx unc h
    obtain ⟨hnd, hgood⟩ := h
    have hq := hrecs r o (by simp)
    cases r with
    | Set k v =>
      simp only [replayRecords]
      apply ih (fun r2 o2 hm => hrecs r2 o2 (List.mem_cons_of_mem _ hm))
      constructor
      · exact alSet_nodup_keys _ hnd
      · intro k2 fi hi
        by_cases hk2 : k2 = k
        · subst hk2
          rw [alGet_alSet_self] at hi
          injection hi with hi
          subst hi
          exact ⟨c, hc, hq.1, v, hq.2⟩
        · rw [alGet_alSet_ne _ _ hk2] at hi
          exact hgood k2 fi hi
    | Remove k =>
      simp only [replayRecords]
      apply ih (fun r2 o2 hm => hrecs r2 o2 (List.mem_cons_of_mem _ hm))
      constructor
      · exact alDel_nodup_keys _ hnd
      · intro k2 fi hi
        by_cases hk2 : k2 = k
        · subst hk2
          rw [alGet_alDel_self] at hi
          simp at hi
        · rw [alGet_alDel_ne _ hk2] at hi
          exact hgood k2 fi hi

/-- During replay, a `Set` record from a well-formed file produces an
entry addressing a line with a matching key: the decoded record at the
entry is exactly the parsed one. -/
lemma replayUpTo_good {d : Files} (hwf : ∀ p ∈ d, WfChunks p.2) :
    ∀ n idx unc, replayUpTo d n = .ok (idx, unc) →
      (idx.map Prod.fst).Nodup ∧
      ∀ k fi, alGet idx k = some fi → GoodEntry d k fi := by
  intro n
  induction n with
  | zero =>
    intro idx unc h
    injection h with h
    injection h with h1 h2
    subst h1
    exact ⟨List.nodup_nil, by intro k fi hi; simp [alGet] at hi⟩
  | succ n ih =>
    intro idx unc h
    simp only [replayUpTo] at h
    cases hn : replayUpTo d n with
    | error e => rw [hn] at h; simp at h
    | ok q =>
      obtain ⟨idx1, unc1⟩ := q
      rw [hn] at h
      dsimp only at h
      cases hf : alGet d (n + 1) with
      | none =>
        rw [hf] at h
        injection h with h
        injection h with h1 h2
        subst h1
        exact ih idx1 unc1 hn
      | some c =>
        rw [hf] at h
        dsimp only at h
        cases hparse : parseAllFrom c 0 with
        | error e => rw [hparse] at h; simp at h
        | ok recs =>
          rw [hparse] at h
          dsimp only at h
          injection h with h
          have hwfc : WfChunks c := hwf (n + 1, c) (alGet_mem hf)
          have hrecs : ∀ r o, (r, o) ∈ recs →
              (takeLine (c.drop o)).getLast? = some '\n' ∧
              deserializeRec (takeLine (c.drop o)) = .ok r := by
            intro r o hm
            obtain ⟨h1, h2, h3⟩ := parse_chunks_good hwfc 0 recs hparse r o hm
            rw [Nat.sub_zero] at h2 h3
            exact ⟨h2, h3⟩
          have := replayRecords_good hf hrecs idx1 unc1 (ih idx1 unc1 hn)
          rw [h] at this
          exact this

/-- Opening a well-formed directory establishes the core invariant. -/
lemma openStore_CoreInv {d : Files} {st : KvStore} (hwf : WfDir d)
    (h : openStore d = .ok st) : CoreInv st := by
  unfold openStore at h
  dsimp only at h
  set fc0 := d.foldl (fun acc p => if p.1 > acc then p.1 else acc) 0 with hfc0
  set fc := if fc0 < 1 then 1 else fc0 with hfc
  set d2 := if (alGet d fc).isSome then d else alSet d fc [] with hd2
  have hwf2 : ∀ p ∈ d2, WfChunks p.2 := by
    intro p hp
    rw [hd2] at hp
    by_cases hs : (alGet d fc).isSome
    · rw [if_pos hs] at hp
      exact hwf.2 p hp
    · rw [if_neg hs] at hp
      rcases mem_alSet hp with h1 | h2
      · rw [h1]
        exact WfChunks.nil
      · exact hwf.2 p h2
  cases hrep : replayUpTo d2 fc with
  | error e => rw [hrep] at h; simp at h
  | ok q =>
    obtain ⟨idx, unc⟩ := q
    rw [hrep] at h
    dsimp only at h
    injection h with h
    obtain ⟨hnd, hgood⟩ := replayUpTo_good hwf2 fc idx unc hrep
    subst h
    exact ⟨hnd, hgood⟩

/-! ### Full-invariant preservation -/

lemma WfStore_unc {st : KvStore} (u : Nat) (h : WfStore st) :
    WfStore { st with uncompacted := u } :=
  ⟨h.wff, h.idx_nodup, h.idx_good, h.idx_keys_clean, h.replay_eq⟩

lemma WfStore_CoreInv {st : KvStore} (h : WfStore st) : CoreInv st :=
  ⟨h.idx_nodup, h.idx_good⟩

lemma WfStore_openStore {st : KvStore} (h : WfStore st) :
    ∃ u, openStore st.files = .ok { st with uncompacted := u } := by
  obtain ⟨u, hu⟩ := h.replay_eq
  refine ⟨u, ?_⟩
  unfold openStore
  dsimp only
  have hscan : st.files.foldl (fun acc p => if p.1 > acc then p.1 else acc) 0 =
      st.file_count :=
    scan_foldl_eq_fc (fun p hp => (h.wff.keys_le p hp).2)
      h.wff.cur_present h.wff.fc_pos
  rw [hscan]
  have h1 : ¬(st.file_count < 1) := by have := h.wff.fc_pos; omega
  rw [if_neg h1]
  rw [if_pos h.wff.cur_present]
  rw [hu]

lemma WfFiles_newFile {st : KvStore} (h : WfFiles st.file_count st.files) :
    WfFiles (newFile st).file_count (newFile st).files ∧
    ∀ idx u, replayUpTo st.files st.file_count = .ok (idx, u) →
      replayUpTo (newFile st).files (newFile st).file_count = .ok (idx, u) := by
  have hnone : alGet st.files (st.file_count + 1) = none := by
    apply alGet_eq_none_of_not_mem
    intro hm
    obtain ⟨p, hp, hp2⟩ := List.mem_map.mp hm
    have := (h.keys_le p hp).2
    omega
  have hfe : (newFile st).files = alSet st.files (st.file_count + 1) [] := by
    unfold newFile
    dsimp only
    rw [hnone]
    simp
  have hfc : (newFile st).file_count = st.file_count + 1 := rfl
  constructor
  · refine ⟨by rw [hfc]; omega, ?_, ?_, ?_, ?_⟩
    · intro p hp
      rw [hfe] at hp
      rw [hfc]
      rcases mem_alSet hp with h1 | h2
      · rw [h1]
        exact ⟨by omega, by omega⟩
      · have := h.keys_le p h2
        exact ⟨this.1, by omega⟩
    · rw [hfe]
      exact alSet_nodup_keys _ h.nodup
    · rw [hfe, hfc]
      rw [alGet_alSet_self]
      rfl
    · intro p hp
      rw [hfe] at hp
      rcases mem_alSet hp with h1 | h2
      · rw [h1]
        exact WfChunks.nil
      · exact h.wf p h2
  · intro idx u hrep
    rw [hfe, hfc]
    simp only [replayUpTo]
    have hcongr : replayUpTo (alSet st.files (st.file_count + 1) [])
        st.file_count = replayUpTo st.files st.file_count := by
      apply replayUpTo_congr
      intro m h1 h2
      exact alGet_alSet_ne _ _ (by omega)
    rw [hcongr, hrep]
    dsimp only
    rw [alGet_alSet_self]
    dsimp only
    rw [parseAllFrom_nil]
    rfl

lemma WfFiles_checkIfNewFile {st : KvStore}
    (h : WfFiles st.file_count st.files) :
    WfFiles (checkIfNewFile st).file_count (checkIfNewFile st).files ∧
    ∀ idx u, replayUpTo st.files st.file_count = .ok (idx, u) →
      replayUpTo (checkIfNewFile st).files (checkIfNewFile st).file_count =
        .ok (idx, u) := by
  rcases checkIfNewFile_cases st with h2 | h2 <;> rw [h2]
  · exact ⟨h, fun idx u hr => hr⟩
  · exact WfFiles_newFile h

lemma WfFiles_append_line {fc : Nat} {files : Files}
    (h : WfFiles fc files) {r : Record} (hgl : goodLine (serializeRec r))
    (hds : deserializeRec (serializeRec r) = .ok r) :
    WfFiles fc (writeRec files fc r).2 ∧
    ∀ idx u, replayUpTo files fc = .ok (idx, u) →
      replayUpTo (writeRec files fc r).2 fc =
        .ok (replayRecords fc idx u
          [(r, ((alGet files fc).getD []).length)]) := by
  obtain ⟨c, hc⟩ := Option.isSome_iff_exists.mp h.cur_present
  have hwfc : WfChunks c := h.wf (fc, c) (alGet_mem hc)
  obtain ⟨⟨pf, hpf, hnpf⟩, r2, hr2⟩ := hgl
  have hfe : (writeRec files fc r).2 = alSet files fc (c ++ serializeRec r) := by
    unfold writeRec extendFile
    rw [hc]
    rfl
  constructor
  · refine ⟨h.fc_pos, ?_, ?_, ?_, ?_⟩
    · intro p hp
      rw [hfe] at hp
      rcases mem_alSet hp with h1 | h2
      · rw [h1]
        exact ⟨h.fc_pos, le_refl fc⟩
      · exact h.keys_le p h2
    · rw [hfe]
      exact alSet_nodup_keys _ h.nodup
    · rw [hfe, alGet_alSet_self]
      rfl
    · intro p hp
      rw [hfe] at hp
      rcases mem_alSet hp with h1 | h2
      · rw [h1]
        exact WfChunks_append hwfc
          (WfChunks_singleton ⟨⟨pf, hpf, hnpf⟩, r2, hr2⟩)
      · exact h.wf p h2
  · intro idx u hrep
    have hlast := replayUpTo_last_append h.fc_pos hc hwfc hpf hnpf hds hrep
    rw [hc]
    simp only [Option.getD_some]
    exact hlast

lemma WfStore_compactOp {st : KvStore} (h : WfStore st) :
    (compactOp st).1 = .ok () ∧ WfStore (compactOp st).2 := by
  have hnone : alGet st.files (st.file_count + 1) = none := by
    apply alGet_eq_none_of_not_mem
    intro hm
    obtain ⟨p, hp, hp2⟩ := List.mem_map.mp hm
    have := (h.wff.keys_le p hp).2
    omega
  have hnf : (newFile st).files = alSet st.files (st.file_count + 1) [] := by
    unfold newFile
    dsimp only
    rw [hnone]
    simp
  have hbase : alGet (newFile st).files (st.file_count + 1) = some [] := by
    rw [hnf]
    exact alGet_alSet_self _ _ _
  have hg2 : ∀ k fi, (k, fi) ∈ st.idx → GoodEntry (newFile st).files k fi := by
    intro k fi hm
    exact GoodEntry_newFile (h.idx_good k fi (alGet_of_mem_nodup h.idx_nodup hm))
  obtain ⟨hok, hkeys, hcorr⟩ :=
    compactLoop_good (st.file_count + 1) st.idx (newFile st).files hg2
  obtain ⟨x, recs, hx, hwfx, hparse, hreplay⟩ :=
    compactLoop_replay (st.file_count + 1) st.idx (newFile st).files []
      h.idx_nodup hg2 hbase
  set q := compactLoop (st.file_count + 1) st.idx (newFile st).files with hqdef
  set stC : KvStore :=
    { file_count := st.file_count + 1,
      files := delUpTo q.2.2 st.file_count,
      idx := q.2.1,
      uncompacted := 0 } with hstC
  have hco : compactOp st = (.ok (), stC) := by
    rw [compactOp_eq st, ← hqdef, hok]
  rw [hco]
  refine ⟨rfl, ?_⟩
  rw [List.nil_append] at hx
  simp only [List.length_nil] at hparse
  have hcur : alGet stC.files (st.file_count + 1) = some x := by
    show alGet (delUpTo q.2.2 st.file_count) (st.file_count + 1) = some x
    rw [alGet_delUpTo, if_neg (by omega)]
    exact hx
  have hkeyC : ∀ p ∈ stC.files, p.1 = st.file_count + 1 := by
    intro p hp
    have hp2 := mem_delUpTo hp
    rcases compactLoop_files_mem _ _ _ hp2.1 with h1 | h2
    · exact h1
    · rw [hnf] at h2
      rcases mem_alSet h2 with h3 | h4
      · rw [h3]
      · have := h.wff.keys_le p h4
        exact absurd ⟨this.1, this.2⟩ hp2.2
  have hndC : (stC.files.map Prod.fst).Nodup := by
    show ((delUpTo q.2.2 st.file_count).map Prod.fst).Nodup
    apply delUpTo_nodup
    apply compactLoop_files_nodup
    rw [hnf]
    exact alSet_nodup_keys _ h.wff.nodup
  refine ⟨⟨Nat.succ_le_succ (Nat.zero_le _), ?_, hndC, ?_, ?_⟩, ?_, ?_, ?_, ?_⟩
  · intro p hp
    rw [hkeyC p hp]
    exact ⟨by omega, le_refl _⟩
  · show (alGet stC.files (st.file_count + 1)).isSome
    rw [hcur]
    rfl
  · intro p hp
    have hpk := hkeyC p hp
    have : alGet stC.files p.1 = some p.2 := by
      apply alGet_of_mem_nodup hndC
      exact hp
    rw [hpk, hcur] at this
    injection this with this
    rw [this] at hwfx
    exact hwfx
  · show (q.2.1.map Prod.fst).Nodup
    rw [hkeys]
    exact h.idx_nodup
  · intro k fi2 hget
    have hget2 : alGet q.2.1 k = some fi2 := hget
    have hkmem : k ∈ st.idx.map Prod.fst := by
      rw [← hkeys]
      exact List.mem_map.mpr ⟨(k, fi2), alGet_mem hget2, rfl⟩
    cases hi : alGet st.idx k with
    | none =>
      have := alGet_isSome_of_mem_keys hkmem
      rw [hi] at this
      simp at this
    | some fi =>
      obtain ⟨fi2b, v, hcg, hnum, hrd, hge, hro⟩ := hcorr k fi hi
      rw [hget2] at hcg
      injection hcg with hcg
      subst hcg
      apply GoodEntry_mono _ hge
      show alGet (delUpTo q.2.2 st.file_count) fi2.num = alGet q.2.2 fi2.num
      rw [hnum, alGet_delUpTo, if_neg (by omega)]
  · intro p hp
    have hpk : p.1 ∈ st.idx.map Prod.fst := by
      rw [← hkeys]
      exact List.mem_map.mpr ⟨p, hp, rfl⟩
    obtain ⟨p2, hp2, hp2e⟩ := List.mem_map.mp hpk
    have := h.idx_keys_clean p2 hp2
    rw [hp2e] at this
    exact this
  · refine ⟨0, ?_⟩
    show replayUpTo stC.files (st.file_count + 1) = .ok (stC.idx, 0)
    have hz : replayUpTo stC.files st.file_count = .ok ([], 0) := by
      apply replayUpTo_none
      intro m h1 h2
      show alGet (delUpTo q.2.2 st.file_count) m = none
      rw [alGet_delUpTo, if_pos ⟨h1, h2⟩]
    simp only [replayUpTo]
    rw [hz]
    dsimp only
    rw [hcur]
    dsimp only
    rw [hparse]
    dsimp only
    rw [hreplay [] 0 (fun k _ => rfl)]
    rw [List.nil_append]

lemma WfStore_recordUncompact {st : KvStore} (h : WfStore st) :
    (recordUncompact st).1 = .ok () ∧ WfStore (recordUncompact st).2 := by
  unfold recordUncompact
  dsimp only
  split
  · exact WfStore_compactOp (WfStore_unc _ h)
  · exact ⟨rfl, WfStore_unc _ h⟩

lemma WfStore_setOp {st : KvStore} {k v : List Char} (h : WfStore st)
    (hk : cleanStr k) (hv : cleanStr v) :
    (setOp st k v).1 = .ok () ∧ WfStore (setOp st k v).2 := by
  set st1 := checkIfNewFile st with hst1
  have hidx1 : st1.idx = st.idx := checkIfNewFile_idx st
  obtain ⟨hwff1, hrep1⟩ := WfFiles_checkIfNewFile h.wff
  have hgood1 : ∀ k2 fi, alGet st1.idx k2 = some fi →
      GoodEntry st1.files k2 fi := by
    intro k2 fi hi
    rw [hidx1] at hi
    exact GoodEntry_checkIfNewFile (h.idx_good k2 fi hi)
  have hds := deserializeRec_serializeRec_set_clean hk hv
  have hgl : goodLine (serializeRec (.Set k v)) :=
    goodLine_ser_set hk.2.2.1 hv.2.2.1 hds
  set p := writeRec st1.files st1.file_count (.Set k v) with hp
  obtain ⟨hwff2, hrep2⟩ := WfFiles_append_line hwff1 hgl hds
  have hfresh : GoodEntry p.2 k p.1 :=
    GoodEntry_write_set _ hds hk.2.2.1 hv.2.2.1
  obtain ⟨u0, hu0⟩ := h.replay_eq
  have hmid := hrep1 st.idx u0 hu0
  have hrepX := hrep2 st.idx u0 hmid
  have hA : ∀ u : Nat,
      WfStore { file_count := st1.file_count, files := p.2,
                idx := alSet st1.idx k p.1, uncompacted := u } := by
    intro u
    refine ⟨hwff2, ?_, ?_, ?_, ?_⟩
    · show ((alSet st1.idx k p.1).map Prod.fst).Nodup
      rw [hidx1]
      exact alSet_nodup_keys _ h.idx_nodup
    · intro k2 fi hi
      have hi2 : alGet (alSet st1.idx k p.1) k2 = some fi := hi
      by_cases hk2 : k2 = k
      · subst hk2
        rw [alGet_alSet_self] at hi2
        injection hi2 with hi2
        subst hi2
        exact hfresh
      · rw [alGet_alSet_ne _ _ hk2] at hi2
        rw [hp]
        exact GoodEntry_extendFile _ (hgood1 k2 fi hi2)
    · intro p2 hp2
      rcases mem_alSet hp2 with h1 | h2
      · rw [h1]
        exact hk
      · rw [hidx1] at h2
        exact h.idx_keys_clean p2 h2
    · refine ⟨(if (alGet st.idx k).isSome then u0 + 1 else u0), ?_⟩
      show replayUpTo p.2 st1.file_count =
        .ok (alSet st1.idx k p.1, _)
      rw [hrepX]
      simp only [replayRecords]
      rw [hidx1]
      rfl
  unfold setOp
  dsimp only
  rw [← hst1, ← hp]
  cases hc : alGet st1.idx k with
  | none => exact ⟨rfl, hA st1.uncompacted⟩
  | some fi0 => exact WfStore_recordUncompact (hA (st1.uncompacted + 1))

lemma WfStore_removeOp {st : KvStore} {k : List Char} (h : WfStore st)
    (hk : cleanStr k) (hsome : (alGet st.idx k).isSome) :
    (removeOp st k).1 = .ok () ∧ WfStore (removeOp st k).2 := by
  set stD : KvStore := { st with idx := alDel st.idx k } with hstD
  set st1 := checkIfNewFile stD with hst1
  obtain ⟨hwff1, hrep1⟩ := @WfFiles_checkIfNewFile stD h.wff
  have hidx1 : st1.idx = alDel st.idx k := checkIfNewFile_idx stD
  have hdsr := deserializeRec_serializeRec_rm_clean hk
  have hgl : goodLine (serializeRec (.Remove k)) :=
    goodLine_ser_rm hk.2.2.1 hdsr
  set p := writeRec st1.files st1.file_count (.Remove k) with hp
  obtain ⟨hwff2, hrep2⟩ := WfFiles_append_line hwff1 hgl hdsr
  obtain ⟨u0, hu0⟩ := h.replay_eq
  have hmid := hrep1 st.idx u0 hu0
  have hrepX := hrep2 st.idx u0 hmid
  have hB : WfStore { file_count := st1.file_count, files := p.2,
                      idx := st1.idx, uncompacted := st1.uncompacted } := by
    refine ⟨hwff2, ?_, ?_, ?_, ?_⟩
    · show (st1.idx.map Prod.fst).Nodup
      rw [hidx1]
      exact alDel_nodup_keys _ h.idx_nodup
    · intro k2 fi hi
      have hi2 : alGet st1.idx k2 = some fi := hi
      rw [hidx1] at hi2
      by_cases hk2 : k2 = k
      · subst hk2
        rw [alGet_alDel_self] at hi2
        simp at hi2
      · rw [alGet_alDel_ne _ hk2] at hi2
        rw [hp]
        apply GoodEntry_extendFile
        exact @GoodEntry_checkIfNewFile stD _ _ (h.idx_good k2 fi hi2)
    · intro p2 hp2
      have hp3 : p2 ∈ st1.idx := hp2
      rw [hidx1] at hp3
      exact h.idx_keys_clean p2 (mem_alDel hp3).1
    · refine ⟨u0 + 1, ?_⟩
      show replayUpTo p.2 st1.file_count = .ok (st1.idx, u0 + 1)
      rw [hrepX]
      simp only [replayRecords]
      rw [hidx1]
  unfold removeOp
  cases hc : alGet st.idx k with
  | none => rw [hc] at hsome; simp at hsome
  | some fi0 =>
    dsimp only
    rw [← hstD, ← hst1, ← hp]
    exact WfStore_recordUncompact hB

lemma WfStore_runOps {ops : List Op} :
    ∀ {st : KvStore}, WfStore st → (∀ op ∈ ops, cleanOp op) →
    (runOps st ops).1 = .ok () → WfStore (runOps st ops).2 := by
  induction ops with
  | nil => intro st h _ _; exact h
  | cons op rest ih =>
    intro st h hops hok
    cases op with
    | set k v =>
      obtain ⟨hk, hv⟩ : cleanStr k ∧ cleanStr v :=
        hops (Op.set k v) (List.mem_cons_self _ _)
      obtain ⟨ha, hb⟩ := WfStore_setOp h hk hv
      have he : applyOp st (.set k v) = (.ok (), (setOp st k v).2) := by
        show setOp st k v = _
        rw [← ha]
      simp only [runOps, he] at hok ⊢
      exact ih hb (fun op2 hm => hops op2 (List.mem_cons_of_mem _ hm)) hok
    | rm k =>
      have hk : cleanStr k := hops (Op.rm k) (List.mem_cons_self _ _)
      cases hsome : alGet st.idx k with
      | none =>
        have hfail := @removeOp_absent st _ hsome
        have he : applyOp st (.rm k) =
            (.error (.NonExistentKey k), st) := hfail
        simp only [runOps, he] at hok
        simp at hok
      | some fi =>
        obtain ⟨ha, hb⟩ := WfStore_removeOp h hk (by rw [hsome]; rfl)
        have he : applyOp st (.rm k) = (.ok (), (removeOp st k).2) := by
          show removeOp st k = _
          rw [← ha]
        simp only [runOps, he] at hok ⊢
        exact ih hb (fun op2 hm => hops op2 (List.mem_cons_of_mem _ hm)) hok

lemma WfStore_empty : openStore [] = .ok ⟨1, [(1, [])], [], 0⟩ ∧
    WfStore ⟨1, [(1, [])], [], 0⟩ := by
  refine ⟨by decide, ⟨⟨le_refl 1, ?_, ?_, ?_, ?_⟩, ?_, ?_, ?_, ?_⟩⟩
  · intro p hp
    simp at hp
    rw [hp]
    exact ⟨le_refl 1, le_refl 1⟩
  · decide
  · decide
  · intro p hp
    simp at hp
    rw [hp]
    exact WfChunks.nil
  · exact List.nodup_nil
  · intro k fi hi
    simp [alGet] at hi
  · intro p hp
    simp at hp
  · exact ⟨0, by decide⟩

lemma CoreInv_GoodIdx {st : KvStore} (h : CoreInv st) : GoodIdx st := by
  intro k fi hi
  exact readAt_of_GoodEntry (h.2 k fi hi)

lemma compactOp_shape (st : KvStore) :
    (compactOp st).2.uncompacted = 0 ∧
    (compactOp st).2.file_count = st.file_count + 1 := by
  rw [compactOp_eq st]
  cases (compactLoop (st.file_count + 1) st.idx (newFile st).files).1 with
  | error e => exact ⟨rfl, rfl⟩
  | ok u => exact ⟨rfl, rfl⟩

/-! ### Discovery-scan lemmas -/

lemma scanMax_ge_acc (names : List (List Char)) :
    ∀ acc : Int, acc ≤ names.foldl
      (fun acc name =>
        match nameVal name with
        | none => acc
        | some n => if n > acc then n else acc) acc := by
  induction names with
  | nil => intro acc; simp
  | cons name rest ih =>
    intro acc
    simp only [List.foldl_cons]
    cases hv : nameVal name with
    | none => exact ih acc
    | some n =>
      dsimp only
      by_cases hn : n > acc
      · rw [if_pos hn]
        exact le_trans (le_of_lt hn) (ih n)
      · rw [if_neg hn]
        exact ih acc

lemma scanMax_ge_mem {names : List (List Char)} {name : List Char}
    {v : Int} (hm : name ∈ names) (hv : nameVal name = some v) :
    ∀ acc : Int, v ≤ names.foldl
      (fun acc name =>
        match nameVal name with
        | none => acc
        | some n => if n > acc then n else acc) acc := by
  induction names with
  | nil => simp at hm
  | cons n2 rest ih =>
    intro acc
    simp only [List.foldl_cons]
    rcases List.mem_cons.mp hm with h1 | h2
    · subst h1
      rw [hv]
      dsimp only
      by_cases hn : v > acc
      · rw [if_pos hn]
        exact scanMax_ge_acc rest v
      · rw [if_neg hn]
        exact le_trans (by omega) (scanMax_ge_acc rest acc)
    · exact ih h2 _

lemma scanMax_mem_or_acc (names : List (List Char)) :
    ∀ acc : Int, names.foldl
      (fun acc name =>
        match nameVal name with
        | none => acc
        | some n => if n > acc then n else acc) acc = acc ∨
      ∃ name ∈ names, nameVal name = some (names.foldl
        (fun acc name =>
          match nameVal name with
          | none => acc
          | some n => if n > acc then n else acc) acc) := by
  induction names with
  | nil => intro acc; left; rfl
  | cons n2 rest ih =>
    intro acc
    simp only [List.foldl_cons]
    cases hv : nameVal n2 with
    | none =>
      rcases ih acc with h1 | ⟨name, hm, h2⟩
      · left; exact h1
      · right; exact ⟨name, List.mem_cons_of_mem _ hm, h2⟩
    | some n =>
      dsimp only
      by_cases hn : n > acc
      · rw [if_pos hn]
        rcases ih n with h1 | ⟨name, hm, h2⟩
        · right
          refine ⟨n2, List.mem_cons_self _ _, ?_⟩
          rw [hv, h1]
        · right; exact ⟨name, List.mem_cons_of_mem _ hm, h2⟩
      · rw [if_neg hn]
        rcases ih acc with h1 | ⟨name, hm, h2⟩
        · left; exact h1
        · right; exact ⟨name, List.mem_cons_of_mem _ hm, h2⟩

lemma scanMax_eq_foldl (names : List (List Char)) :
    scanMax names = names.foldl
      (fun acc name =>
        match nameVal name with
        | none => acc
        | some n => if n > acc then n else acc) 0 := rfl

/-! ### Decoder success characterization -/

lemma deserializeRec_ok_iff (buf : List Char) :
    (∃ r, deserializeRec buf = .ok r) ↔
      ((∃ k v, splitSp (trimL buf) = [setTok, k, v]) ∨
       (∃ k, splitSp (trimL buf) = [rmTok, k])) := by
  constructor
  · rintro ⟨r, hr⟩
    cases r with
    | Set k v => exact Or.inl ⟨k, v, deserializeRec_ok_set_inv hr⟩
    | Remove k => exact Or.inr ⟨k, deserializeRec_ok_rm_inv hr⟩
  · rintro (⟨k, v, hs⟩ | ⟨k, hs⟩)
    · refine ⟨.Set k v, ?_⟩
      unfold deserializeRec
      rw [hs]
      simp
    · refine ⟨.Remove k, ?_⟩
      unfold deserializeRec
      rw [hs]
      simp [setTok, rmTok]

lemma getOp_remove_record {st : KvStore} {k s : List Char} {fi : FileIndex}
    (hi : alGet st.idx k = some fi)
    (hr : readAt st.files fi = .ok (.Remove s)) :
    getOp st k = .ok none := by
  unfold getOp getS
  rw [hi]
  dsimp only
  rw [hr]

lemma CoreInv_empty_idx (fc : Nat) (files : Files) (u : Nat) :
    CoreInv ⟨fc, files, [], u⟩ := by
  refine ⟨List.nodup_nil, ?_⟩
  intro k fi h
  exact Option.noConfusion h

lemma getS_snd (st : KvStore) (k : List Char) : (getS st k).2 = st := by
  unfold getS
  cases alGet st.idx k with
  | none => rfl
  | some fi =>
    dsimp only
    cases readAt st.files fi with
    | error e => rfl
    | ok r => cases r <;> rfl

/-! ## The claims -/

/-- C10: `get` never modifies the engine state: for every store and every
key, the state component of `getS` — index, uncompacted counter, active
segment number and all file contents — is the original store, whether the
lookup returns a value, `none`, or an error. -/
theorem C10_get_pure (st : KvStore) (k : List Char) : (getS st k).2 = st :=
  getS_snd st k

/-- C5: removing an absent key fails with `NonExistentKey` and returns the
engine state completely unchanged. -/
theorem C5_remove_absent (st : KvStore) (k : List Char)
    (h : alGet st.idx k = none) :
    removeOp st k = (.error (.NonExistentKey k), st) :=
  removeOp_absent h

/-- Witness for C5: removing `z` from a freshly created store. -/
theorem C5_remove_absent_witness :
    removeOp ⟨1, [(1, [])], [], 0⟩ ['z'] =
      (.error (.NonExistentKey ['z']), ⟨1, [(1, [])], [], 0⟩) :=
  C5_remove_absent ⟨1, [(1, [])], [], 0⟩ ['z'] (by decide)

/-- C6 counterexample: a store whose index entry for `a` dereferences to a
`Remove` record.  `get a` returns `Ok(None)` — a success — not the
Corruption error the claim demands. -/
theorem C6_counterexample :
    alGet ((⟨1, [(1, serializeRec (.Remove ['a']))], [(['a'], ⟨1, 0⟩)], 0⟩ :
        KvStore)).idx ['a'] = some ⟨1, 0⟩ ∧
    readAt ((⟨1, [(1, serializeRec (.Remove ['a']))], [(['a'], ⟨1, 0⟩)], 0⟩ :
        KvStore)).files ⟨1, 0⟩ = .ok (.Remove ['a']) ∧
    getOp (⟨1, [(1, serializeRec (.Remove ['a']))], [(['a'], ⟨1, 0⟩)], 0⟩ :
        KvStore) ['a'] = .ok none := by
  decide

/-- C6 (amended): when a present key's entry dereferences to a non-`Set`
record, `get` does not fail — it falls through the match and returns the
success value `Ok(None)`. -/
theorem C6_get_non_set (st : KvStore) (k s : List Char) (fi : FileIndex)
    (hi : alGet st.idx k = some fi)
    (hr : readAt st.files fi = .ok (.Remove s)) :
    getOp st k = .ok none :=
  getOp_remove_record hi hr

/-- Witness for the amended C6 at a concrete corrupted store. -/
theorem C6_get_non_set_witness :
    getOp (⟨1, [(1, serializeRec (.Remove ['b']))], [(['b'], ⟨1, 0⟩)], 0⟩ :
      KvStore) ['b'] = .ok none :=
  C6_get_non_set ⟨1, [(1, serializeRec (.Remove ['b']))], [(['b'], ⟨1, 0⟩)], 0⟩
    ['b'] ['b'] ⟨1, 0⟩ (by decide) (by decide)

/-- C7 counterexample: the value `b\t` is non-empty and contains neither a
space nor a newline, yet `trim` eats the tab, so decoding the encoded
record yields a different record. -/
theorem C7_counterexample :
    deserializeRec (serializeRec (.Set ['a'] ['b', '\t'])) =
      .ok (.Set ['a'] ['b']) ∧
    Record.Set ['a'] ['b'] ≠ .Set ['a'] ['b', '\t'] := by
  decide

/-- C7 (amended): the round trip holds when key and value additionally end
in no Rust whitespace character (`cleanStr`), and decoding succeeds exactly
when the trimmed line splits into `set k v` or `rm k`; every other shape
fails with `DeserializeError`. -/
theorem C7_codec :
    (∀ k v : List Char, cleanStr k → cleanStr v →
      deserializeRec (serializeRec (.Set k v)) = .ok (.Set k v)) ∧
    (∀ k : List Char, cleanStr k →
      deserializeRec (serializeRec (.Remove k)) = .ok (.Remove k)) ∧
    (∀ buf : List Char, (∃ r, deserializeRec buf = .ok r) ↔
      ((∃ k v, splitSp (trimL buf) = [setTok, k, v]) ∨
       (∃ k, splitSp (trimL buf) = [rmTok, k]))) :=
  ⟨fun _ _ hk hv => deserializeRec_serializeRec_set_clean hk hv,
   fun _ hk => deserializeRec_serializeRec_rm_clean hk,
   deserializeRec_ok_iff⟩

/-- Witness for the amended C7: the round trip at a concrete record. -/
theorem C7_codec_witness :
    deserializeRec (serializeRec (.Set ['k'] ['v'])) = .ok (.Set ['k'] ['v']) :=
  C7_codec.1 ['k'] ['v'] (by decide) (by decide)

/-- C1 counterexample: on a freshly opened engine, `set a "b\t"` (the value
is non-empty with no space and no newline) succeeds, but the following
`get a` returns `Some "b"`, not `Some "b\t"`: `trim` in the decoder ate the
trailing tab. -/
theorem C1_counterexample :
    openStore [] = .ok (⟨1, [(1, [])], [], 0⟩ : KvStore) ∧
    (setOp ⟨1, [(1, [])], [], 0⟩ ['a'] ['b', '\t']).1 = .ok () ∧
    getOp (setOp ⟨1, [(1, [])], [], 0⟩ ['a'] ['b', '\t']).2 ['a'] =
      .ok (some ['b']) ∧
    (some ['b'] : Option (List Char)) ≠ some ['b', '\t'] := by
  decide

/-- C1 (amended): on a store satisfying the core invariant, for a key and a
value that moreover end in no Rust whitespace character (`cleanStr`), a
successful `set k v` is followed by `get k = Ok (Some v)`. -/
theorem C1_set_get (st st' : KvStore) (k v : List Char) (h : CoreInv st)
    (hk : cleanStr k) (hv : cleanStr v)
    (hrun : setOp st k v = (.ok (), st')) :
    getOp st' k = .ok (some v) := by
  have h2 := (setOp_spec h hk hv).2.2
  have hst : st' = (setOp st k v).2 := by rw [hrun]
  rw [hst]
  exact h2

/-- Witness for the amended C1: `set a b; get a` on a fresh store. -/
theorem C1_set_get_witness :
    getOp ⟨1, [(1, ['s', 'e', 't', ' ', 'a', ' ', 'b', '\n'])],
      [(['a'], ⟨1, 0⟩)], 0⟩ ['a'] = .ok (some ['b']) :=
  C1_set_get ⟨1, [(1, [])], [], 0⟩
    ⟨1, [(1, ['s', 'e', 't', ' ', 'a', ' ', 'b', '\n'])], [(['a'], ⟨1, 0⟩)], 0⟩
    ['a'] ['b'] (CoreInv_empty_idx 1 [(1, [])] 0) (by decide) (by decide)
    (by decide)

/-- C3: successful compaction on a store satisfying the core invariant,
whose segment numbers lie in `1..=file_count`, leaves every index entry
pointing into the new active segment, deletes every previously existing
segment file, resets the uncompacted counter to `0`, and preserves the
result of `get` for every key. -/
theorem C3_compaction (st st' : KvStore) (h : CoreInv st)
    (hb : ∀ p ∈ st.files, 1 ≤ p.1 ∧ p.1 ≤ st.file_count)
    (hrun : compactOp st = (.ok (), st')) :
    (∀ k fi, alGet st'.idx k = some fi → fi.num = st'.file_count) ∧
    (∀ n, (alGet st.files n).isSome → alGet st'.files n = none) ∧
    st'.uncompacted = 0 ∧
    (∀ k, getOp st' k = getOp st k) := by
  obtain ⟨-, -, hfc, hunc, -, hnum, hget, hdel⟩ := compactOp_spec h
  have hst : st' = (compactOp st).2 := by rw [hrun]
  subst hst
  refine ⟨?_, ?_, hunc, hget⟩
  · intro k fi hi
    rw [hfc]
    exact hnum k fi hi
  · intro n hn
    obtain ⟨c, hc⟩ := Option.isSome_iff_exists.mp hn
    obtain ⟨h1, h2⟩ := hb (n, c) (alGet_mem hc)
    exact hdel n h1 h2

/-- Witness for C3: compacting a fresh store deletes segment `1` and
resets the counter. -/
theorem C3_compaction_witness :
    (⟨2, [(2, [])], [], 0⟩ : KvStore).uncompacted = 0 ∧
    alGet ((⟨2, [(2, [])], [], 0⟩ : KvStore)).files 1 = none := by
  have h := C3_compaction ⟨1, [(1, [])], [], 0⟩ ⟨2, [(2, [])], [], 0⟩
    (CoreInv_empty_idx 1 [(1, [])] 0) (by decide) (by decide)
  exact ⟨h.2.2.1, h.2.1 1 (by decide)⟩

/-- C4 counterexample: `set a "\t"` on a fresh store succeeds (the claim
restricts no operand), yet afterwards the index entry for `a`
dereferences to a decode error, not to a `Set` record — the invariant is
not preserved by every `set`. -/
theorem C4_counterexample :
    (setOp ⟨1, [(1, [])], [], 0⟩ ['a'] ['\t']).1 = .ok () ∧
    alGet (setOp ⟨1, [(1, [])], [], 0⟩ ['a'] ['\t']).2.idx ['a'] =
      some ⟨1, 0⟩ ∧
    readAt (setOp ⟨1, [(1, [])], [], 0⟩ ['a'] ['\t']).2.files ⟨1, 0⟩ =
      .error .DeserializeError := by
  decide

/-- C4 (amended): the dereference invariant holds after a well-formed open
and is preserved by `set` with `cleanStr` operands, by `get` (which leaves
the state untouched), by successful `remove`, and by successful
compaction, from any state satisfying the core invariant. -/
theorem C4_invariant :
    (∀ d st, WfDir d → openStore d = .ok st → GoodIdx st) ∧
    (∀ st st' k v, CoreInv st → cleanStr k → cleanStr v →
      setOp st k v = (.ok (), st') → CoreInv st' ∧ GoodIdx st') ∧
    (∀ st k, (getS st k).2 = st) ∧
    (∀ st st' k, CoreInv st → removeOp st k = (.ok (), st') →
      CoreInv st' ∧ GoodIdx st') ∧
    (∀ st st', CoreInv st → compactOp st = (.ok (), st') →
      CoreInv st' ∧ GoodIdx st') := by
  refine ⟨?_, ?_, ?_, ?_, ?_⟩
  · intro d st hwf hopen
    exact CoreInv_GoodIdx (openStore_CoreInv hwf hopen)
  · intro st st' k v h hk hv hrun
    have hC := (setOp_spec h hk hv).2.1
    have hst : st' = (setOp st k v).2 := by rw [hrun]
    rw [hst]
    exact ⟨hC, CoreInv_GoodIdx hC⟩
  · intro st k
    exact getS_snd st k
  · intro st st' k h hrun
    have hsome : (alGet st.idx k).isSome := by
      cases hg : alGet st.idx k with
      | none =>
        rw [removeOp_absent hg] at hrun
        exact Except.noConfusion (congrArg Prod.fst hrun)
      | some fi => rfl
    have hC := (removeOp_spec h hsome).2
    have hst : st' = (removeOp st k).2 := by rw [hrun]
    rw [hst]
    exact ⟨hC, CoreInv_GoodIdx hC⟩
  · intro st st' h hrun
    have hC := (compactOp_spec h).2.1
    have hst : st' = (compactOp st).2 := by rw [hrun]
    rw [hst]
    exact ⟨hC, CoreInv_GoodIdx hC⟩

/-- Witness for the amended C4: after `set a b` on a fresh store the entry
for `a` dereferences to `Set a b`. -/
theorem C4_invariant_witness :
    readAt ((⟨1, [(1, ['s', 'e', 't', ' ', 'a', ' ', 'b', '\n'])],
      [(['a'], ⟨1, 0⟩)], 0⟩ : KvStore)).files ⟨1, 0⟩ =
      .ok (.Set ['a'] ['b']) := by
  have h := C4_invariant.2.1 ⟨1, [(1, [])], [], 0⟩
    ⟨1, [(1, ['s', 'e', 't', ' ', 'a', ' ', 'b', '\n'])], [(['a'], ⟨1, 0⟩)], 0⟩
    ['a'] ['b'] (CoreInv_empty_idx 1 [(1, [])] 0) (by decide) (by decide)
    (by decide)
  obtain ⟨v, hv⟩ := h.2 ['a'] ⟨1, 0⟩ (by decide)
  have hv2 := hv
  rw [show readAt ((⟨1, [(1, ['s', 'e', 't', ' ', 'a', ' ', 'b', '\n'])],
      [(['a'], ⟨1, 0⟩)], 0⟩ : KvStore)).files ⟨1, 0⟩ =
      .ok (.Set ['a'] ['b']) from by decide] at hv2
  injection hv2 with h3
  injection h3 with h4 h5
  rw [← h5] at hv
  exact hv

/-- C8 counterexample: overwriting a present key bumps the uncompacted
counter twice — once unconditionally in `set`, once in
`record_uncompact` — so it rises by `2`, not by exactly one. -/
theorem C8_counterexample :
    alGet ((⟨1, [(1, ['s', 'e', 't', ' ', 'a', ' ', 'b', '\n'])],
      [(['a'], ⟨1, 0⟩)], 0⟩ : KvStore)).idx ['a'] = some ⟨1, 0⟩ ∧
    (setOp ⟨1, [(1, ['s', 'e', 't', ' ', 'a', ' ', 'b', '\n'])],
      [(['a'], ⟨1, 0⟩)], 0⟩ ['a'] ['c']).1 = .ok () ∧
    (setOp ⟨1, [(1, ['s', 'e', 't', ' ', 'a', ' ', 'b', '\n'])],
      [(['a'], ⟨1, 0⟩)], 0⟩ ['a'] ['c']).2.uncompacted = 2 := by
  decide

/-- C8 (amended): a successful `set` of a present key adds exactly `2` to
the uncompacted counter, and compaction runs exactly when the incremented
counter reaches `MAX_UNCOMPACTED_SIZE = 1024` — in that case the counter
resets to `0` and a new active segment is created. -/
theorem C8_uncompacted (st st' : KvStore) (k v : List Char)
    (hsome : (alGet st.idx k).isSome)
    (hrun : setOp st k v = (.ok (), st')) :
    if MAX_UNCOMPACTED_SIZE ≤ st.uncompacted + 2 then
      st'.uncompacted = 0 ∧ st.file_count + 1 ≤ st'.file_count
    else st'.uncompacted = st.uncompacted + 2 := by
  obtain ⟨fi0, hfi⟩ := Option.isSome_iff_exists.mp hsome
  set st1 := checkIfNewFile st with hst1
  have hidx1 : st1.idx = st.idx := checkIfNewFile_idx st
  have hunc1 : st1.uncompacted = st.uncompacted := checkIfNewFile_unc st
  have hfc1 : st.file_count ≤ st1.file_count := by
    rcases checkIfNewFile_fc st with h2 | h2 <;> rw [hst1, h2] <;> omega
  set p := writeRec st1.files st1.file_count (.Set k v) with hp
  have heq : setOp st k v = recordUncompact
      { file_count := st1.file_count, files := p.2,
        idx := alSet st1.idx k p.1, uncompacted := st1.uncompacted + 1 } := by
    unfold setOp
    dsimp only
    rw [← hst1, ← hp]
    rw [show alGet st1.idx k = some fi0 from by rw [hidx1]; exact hfi]
  have hrec : recordUncompact
      { file_count := st1.file_count, files := p.2,
        idx := alSet st1.idx k p.1, uncompacted := st1.uncompacted + 1 } =
      (if st1.uncompacted + 1 + 1 ≥ MAX_UNCOMPACTED_SIZE then
        compactOp
          { file_count := st1.file_count, files := p.2,
            idx := alSet st1.idx k p.1,
            uncompacted := st1.uncompacted + 1 + 1 }
      else (.ok (),
          { file_count := st1.file_count, files := p.2,
            idx := alSet st1.idx k p.1,
            uncompacted := st1.uncompacted + 1 + 1 })) := rfl
  by_cases hcnd : MAX_UNCOMPACTED_SIZE ≤ st.uncompacted + 2
  · rw [if_pos hcnd]
    have hc2 : st1.uncompacted + 1 + 1 ≥ MAX_UNCOMPACTED_SIZE := by
      rw [hunc1]
      omega
    rw [hrec, if_pos hc2] at heq
    have h5 := heq.symm.trans hrun
    have h6 : st' =
        (compactOp
          { file_count := st1.file_count, files := p.2,
            idx := alSet st1.idx k p.1,
            uncompacted := st1.uncompacted + 1 + 1 }).2 := by
      rw [h5]
    obtain ⟨hu0, hfc0⟩ := compactOp_shape
      { file_count := st1.file_count, files := p.2,
        idx := alSet st1.idx k p.1,
        uncompacted := st1.uncompacted + 1 + 1 }
    rw [h6]
    refine ⟨hu0, ?_⟩
    rw [hfc0]
    show st.file_count + 1 ≤ st1.file_count + 1
    omega
  · rw [if_neg hcnd]
    have hc2 : ¬(st1.uncompacted + 1 + 1 ≥ MAX_UNCOMPACTED_SIZE) := by
      rw [hunc1]
      omega
    rw [hrec, if_neg hc2] at heq
    have h5 := heq.symm.trans hrun
    have h6 :
        ({ file_count := st1.file_count, files := p.2,
           idx := alSet st1.idx k p.1,
           uncompacted := st1.uncompacted + 1 + 1 } : KvStore) = st' :=
      congrArg Prod.snd h5
    rw [← h6]
    show st1.uncompacted + 1 + 1 = st.uncompacted + 2
    rw [hunc1]

/-- Witness for the amended C8: a below-threshold overwrite, whose counter
lands at `2`. -/
theorem C8_uncompacted_witness :
    (setOp ⟨1, [(1, ['s', 'e', 't', ' ', 'a', ' ', 'b', '\n'])],
      [(['a'], ⟨1, 0⟩)], 0⟩ ['a'] ['c']).2.uncompacted = 2 := by
  have h := C8_uncompacted
    ⟨1, [(1, ['s', 'e', 't', ' ', 'a', ' ', 'b', '\n'])], [(['a'], ⟨1, 0⟩)], 0⟩
    (setOp ⟨1, [(1, ['s', 'e', 't', ' ', 'a', ' ', 'b', '\n'])],
      [(['a'], ⟨1, 0⟩)], 0⟩ ['a'] ['c']).2
    ['a'] ['c'] (by decide) (by decide)
  rw [if_neg (show ¬(MAX_UNCOMPACTED_SIZE ≤
    (⟨1, [(1, ['s', 'e', 't', ' ', 'a', ' ', 'b', '\n'])],
      [(['a'], ⟨1, 0⟩)], 0⟩ : KvStore).uncompacted + 2) from by decide)] at h
  exact h

/-- C9 counterexample: the code parses the stem with `str::parse::<i32>`,
which accepts leading zeros, so `007.log` is discovered as segment `7`;
under the spec's regex `[1-9][0-9]*\.log` the name is ignored and the
discovered active segment would be `1`. -/
theorem C9_counterexample :
    discoverCount [['0', '0', '7', '.', 'l', 'o', 'g']] = 7 ∧
    specDiscover [['0', '0', '7', '.', 'l', 'o', 'g']] = 1 ∧
    (7 : Int) ≠ 1 := by
  decide

/-- C9 (amended): the active segment number on open is at least `1`, is an
upper bound of every directory-entry name that strips `.log` and parses as
an `i32` (leading zeros and a `+` sign included), and is either `1` or
attained by such a name; and opening an empty directory creates segment
`1` as the active segment. -/
theorem C9_discovery :
    (∀ names : List (List Char), 1 ≤ discoverCount names) ∧
    (∀ (names : List (List Char)) (name : List Char) (v : Int),
      name ∈ names → nameVal name = some v → v ≤ discoverCount names) ∧
    (∀ names : List (List Char), discoverCount names = 1 ∨
      ∃ name, name ∈ names ∧ nameVal name = some (discoverCount names)) ∧
    openStore [] = .ok ⟨1, [(1, [])], [], 0⟩ := by
  refine ⟨?_, ?_, ?_, by decide⟩
  · intro names
    unfold discoverCount
    split <;> omega
  · intro names name v hm hv
    have hb : v ≤ scanMax names := by
      rw [scanMax_eq_foldl]
      exact scanMax_ge_mem hm hv 0
    unfold discoverCount
    split <;> omega
  · intro names
    rcases scanMax_mem_or_acc names 0 with h1 | ⟨name, hm, h2⟩
    · left
      have hz : scanMax names = 0 := by
        rw [scanMax_eq_foldl]
        exact h1
      unfold discoverCount
      rw [hz]
      rw [if_pos (show (0 : Int) < 1 from by decide)]
    · by_cases hlt : scanMax names < 1
      · left
        unfold discoverCount
        rw [if_pos hlt]
      · right
        refine ⟨name, hm, ?_⟩
        have hd : discoverCount names = scanMax names := by
          unfold discoverCount
          rw [if_neg hlt]
        rw [hd, scanMax_eq_foldl]
        exact h2

/-- Witness for the amended C9: the name `2.log` bounds the discovered
segment number from below. -/
theorem C9_discovery_witness :
    (2 : Int) ≤ discoverCount [['2', '.', 'l', 'o', 'g'], ['x']] :=
  C9_discovery.2.1 [['2', '.', 'l', 'o', 'g'], ['x']] ['2', '.', 'l', 'o', 'g']
    2 (by decide) (by decide)

/-- C2 counterexample: two divergences from the claim on a fresh engine.
`set a "\t"` (two successful operations are not even needed) leaves a log
whose replay fails on reopen, because `trim` ate the tab and left the line
`set a` — a malformed record.  And two `set x y` in a row leave a live
uncompacted counter of `2` while replay recomputes `1`, so the reopened
state differs from the live one. -/
theorem C2_counterexample :
    openStore [] = .ok (⟨1, [(1, [])], [], 0⟩ : KvStore) ∧
    (runOps ⟨1, [(1, [])], [], 0⟩ [.set ['a'] ['\t']]).1 = .ok () ∧
    openStore (runOps ⟨1, [(1, [])], [], 0⟩ [.set ['a'] ['\t']]).2.files =
      .error .DeserializeError ∧
    (runOps ⟨1, [(1, [])], [], 0⟩ [.set ['x'] ['y'], .set ['x'] ['y']]).1 =
      .ok () ∧
    (runOps ⟨1, [(1, [])], [], 0⟩
      [.set ['x'] ['y'], .set ['x'] ['y']]).2.uncompacted = 2 ∧
    openStore (runOps ⟨1, [(1, [])], [], 0⟩
        [.set ['x'] ['y'], .set ['x'] ['y']]).2.files =
      .ok { (runOps ⟨1, [(1, [])], [], 0⟩
        [.set ['x'] ['y'], .set ['x'] ['y']]).2 with uncompacted := 1 } := by
  decide

/-- C2 (amended): after any sequence of successful operations with
`cleanStr` operands on an engine opened on an empty directory, reopening
the files reproduces the live state up to the uncompacted counter — the
files, the active segment and the index are equal, and `get` agrees on
every key. -/
theorem C2_replay (ops : List Op) (st0 st : KvStore)
    (hclean : ∀ op ∈ ops, cleanOp op)
    (hopen : openStore [] = .ok st0)
    (hrun : runOps st0 ops = (.ok (), st)) :
    ∃ u, openStore st.files = .ok { st with uncompacted := u } ∧
      ∀ k2, getOp { st with uncompacted := u } k2 = getOp st k2 := by
  have h0 := WfStore_empty
  have hst0 : Except.ok st0 = Except.ok (⟨1, [(1, [])], [], 0⟩ : KvStore) :=
    hopen.symm.trans h0.1
  injection hst0 with hst0
  subst hst0
  have hok : (runOps (⟨1, [(1, [])], [], 0⟩ : KvStore) ops).1 = .ok () := by
    rw [hrun]
  have hwf := WfStore_runOps h0.2 hclean hok
  have hst : st = (runOps (⟨1, [(1, [])], [], 0⟩ : KvStore) ops).2 := by
    rw [hrun]
  obtain ⟨u, hu⟩ := WfStore_openStore hwf
  refine ⟨u, ?_, fun k2 => getOp_unc st u k2⟩
  rw [hst]
  exact hu

/-- Witness for the amended C2: one `set a b` from a fresh engine; the
reopened store carries the same index. -/
theorem C2_replay_witness :
    (openStore ((⟨1, [(1, ['s', 'e', 't', ' ', 'a', ' ', 'b', '\n'])],
        [(['a'], ⟨1, 0⟩)], 0⟩ : KvStore)).files).map KvStore.idx =
      .ok [(['a'], (⟨1, 0⟩ : FileIndex))] := by
  obtain ⟨u, hu, hget⟩ := C2_replay [Op.set ['a'] ['b']]
    ⟨1, [(1, [])], [], 0⟩
    ⟨1, [(1, ['s', 'e', 't', ' ', 'a', ' ', 'b', '\n'])], [(['a'], ⟨1, 0⟩)], 0⟩
    (by decide) (by decide) (by decide)
  rw [hu]
  rfl

end KvsModel
